import Mathlib

/-!
Verification of the edge-aware interval-set algebra of quenbyako/ext
(package `span`: `edge.go`, `bound.go`, `span.go`).

The Go code is generic over an element type `T`, a caller-supplied
comparator `cmp : T → T → int` (required to be a total order by the
specification) and an optional successor callback
`next : func(T, T) T` (`nil` for continuous domains).  The shallow
embedding keeps `cmp` and `next` as explicit arguments of every
operation, exactly as in the source; the theorems instantiate `cmp`
with the canonical comparator `cmpOf` of a `LinearOrder`, which is the
contract the specification imposes on caller-supplied comparators
(`cmp.Compare` in the Go tests is exactly this function).

Go's `nil` function values are modelled by `Option`: a `nil` successor
is `none`, and `IsEdgeNear` tests `next != nil` by matching on the
option.  Go's `error` results are modelled by `Except`, and Go panics
by `Option`-returning constructors (`none` = panic).
-/

set_option maxHeartbeats 1000000
set_option linter.unusedSectionVars false

namespace SpanV2

universe u

variable {T : Type u}

/-- `Edge[T]` from `edge.go`: a boundary value plus an inclusion flag. -/
structure Edge (T : Type u) where
  Value : T
  Included : Bool
deriving DecidableEq

/-- `newEdge` from `edge.go`. -/
def newEdge (v : T) (i : Bool) : Edge T := ⟨v, i⟩

/-- `Bound[T]` from `bound.go`: one contiguous range between two edges. -/
structure Bound (T : Type u) where
  Lo : Edge T
  Hi : Edge T
deriving DecidableEq

/-- Go's `cmp.Compare` for a linearly ordered type: `-1` when `a < b`,
`+1` when `a > b`, `0` otherwise.  This is the canonical comparator the
theorems use; the specification requires caller-supplied comparators to
be total orders, which is exactly what this function expresses. -/
def cmpOf [LinearOrder T] (a b : T) : Int :=
  if a < b then -1 else if b < a then 1 else 0

/-- `IsEdgeNear` from `edge.go`: two edges (lower assumed at most
higher) leave no gap between them.  The first branch fires on equal
values with at least one side included; the second fires only when a
successor function is provided (`next != nil` in Go) and advances from
the lower value at least as far as the higher one. -/
def IsEdgeNear (next : Option (T → T → T)) (cmp : T → T → Int)
    (lower higher : Edge T) : Bool :=
  if cmp lower.Value higher.Value = 0 && (lower.Included || higher.Included) then
    true
  else
    match next with
    | some f =>
        lower.Included && higher.Included &&
          decide (cmp (f lower.Value higher.Value) higher.Value ≥ 0)
    | none => false

/-- `minEdge` from `edge.go`: the lesser edge by value; on ties the
result is included when either input is. -/
def minEdge (a b : Edge T) (cmp : T → T → Int) : Edge T :=
  if cmp a.Value b.Value > 0 then b
  else if cmp a.Value b.Value < 0 then a
  else newEdge a.Value (a.Included || b.Included)

/-- `maxEdge` from `edge.go`: the greater edge by value; on ties the
result is included when either input is. -/
def maxEdge (a b : Edge T) (cmp : T → T → Int) : Edge T :=
  if cmp a.Value b.Value > 0 then a
  else if cmp a.Value b.Value < 0 then b
  else newEdge a.Value (a.Included || b.Included)

/-- `NewBoundEdgesFunc` from `bound.go`.  The source panics when the
validation fails; the panic is modelled by `none`.  (The `cmp == nil`
panic branch is unrepresentable here because Lean functions are total
values.) -/
def NewBoundEdgesFunc (lo hi : Edge T) (cmp : T → T → Int) : Option (Bound T) :=
  if cmp lo.Value hi.Value > 0 then none
  else if cmp lo.Value hi.Value = 0 && (!lo.Included || !hi.Included) then none
  else some ⟨lo, hi⟩

/-- `Bound.Contains` from `bound.go`. -/
def Bound.Contains (a : Bound T) (cmp : T → T → Int) (b : Bound T) : Bool :=
  let locmp := cmp a.Lo.Value b.Lo.Value
  let hicmp := cmp a.Hi.Value b.Hi.Value
  let startWithinA :=
    decide (locmp < 0) ||
      (decide (locmp = 0) && (a.Lo.Included || (b.Lo.Included == a.Lo.Included)))
  let endWithinA :=
    decide (hicmp > 0) ||
      (decide (hicmp = 0) && (a.Hi.Included || (b.Hi.Included == a.Hi.Included)))
  startWithinA && endWithinA

/-- `Bound.Overlaps` from `bound.go`. -/
def Bound.Overlaps (a : Bound T) (cmp : T → T → Int) (b : Bound T) : Bool :=
  let lohicmp := cmp a.Lo.Value b.Hi.Value
  let hilocmp := cmp a.Hi.Value b.Lo.Value
  let bTooLow :=
    decide (lohicmp > 0) ||
      (decide (lohicmp = 0) && (!a.Lo.Included || (a.Lo.Included != b.Hi.Included)))
  let bTooHigh :=
    decide (hilocmp < 0) ||
      (decide (hilocmp = 0) && (!a.Hi.Included || (a.Hi.Included != b.Lo.Included)))
  !bTooHigh && !bTooLow

/-- `Bound.Position` from `bound.go`: `+1` before the bound, `-1`
after it, `0` inside. -/
def Bound.Position (x : Bound T) (cmp : T → T → Int) (i : T) : Int :=
  let locmp := cmp x.Lo.Value i
  let hicmp := cmp x.Hi.Value i
  if locmp > 0 || (decide (locmp = 0) && !x.Lo.Included) then 1
  else if hicmp < 0 || (decide (hicmp = 0) && !x.Hi.Included) then -1
  else 0

/-- `UnionBounds` from `bound.go`: merge two bounds when they overlap
or are adjacent; otherwise return a copy of the first bound and
`false`.  The source builds each merged bound through
`NewBoundEdgesFunc`, whose validation panic cannot fire on valid
inputs (proved as claim C6); the construction after the validation is
the plain structure literal used here. -/
def UnionBounds (next : Option (T → T → T)) (cmp : T → T → Int)
    (a b : Bound T) : Bound T × Bool :=
  if a.Contains cmp b then (⟨a.Lo, a.Hi⟩, true)
  else if b.Contains cmp a then (⟨b.Lo, b.Hi⟩, true)
  else if !(a.Overlaps cmp b) then
    if decide (cmp a.Hi.Value b.Lo.Value ≤ 0) && IsEdgeNear next cmp a.Hi b.Lo then
      (⟨a.Lo, b.Hi⟩, true)
    else if decide (cmp b.Hi.Value a.Lo.Value ≤ 0) && IsEdgeNear next cmp b.Hi a.Lo then
      (⟨b.Lo, a.Hi⟩, true)
    else (a, false)
  else (⟨minEdge a.Lo b.Lo cmp, maxEdge a.Hi b.Hi cmp⟩, true)

/-- `Bound.Difference` from `bound.go`: `a − b` as zero, one or two
bounds.  As in `UnionBounds`, the `NewBoundEdgesFunc` construction of
each emitted piece is modelled by the structure literal it builds. -/
def Bound.Difference (a : Bound T) (cmp : T → T → Int) (b : Bound T) :
    List (Bound T) :=
  if b.Contains cmp a then []
  else if !(a.Overlaps cmp b) then [a]
  else
    let res1 :=
      let locmp := cmp b.Lo.Value a.Lo.Value
      if locmp = 0 then
        if a.Lo.Included && !b.Lo.Included then
          [⟨newEdge a.Lo.Value true, newEdge a.Lo.Value true⟩]
        else []
      else if locmp > 0 then
        [⟨a.Lo, newEdge b.Lo.Value (!b.Lo.Included)⟩]
      else []
    let res2 :=
      let hicmp := cmp b.Hi.Value a.Hi.Value
      if hicmp = 0 then
        if a.Hi.Included && !b.Hi.Included then
          [⟨newEdge a.Hi.Value true, newEdge a.Hi.Value true⟩]
        else []
      else if hicmp < 0 then
        [⟨newEdge b.Hi.Value (!b.Hi.Included), a.Hi⟩]
      else []
    res1 ++ res2

/-! ### Span-level operations (`span.go`)

A `span[T]` value carries its `next`, `cmp` and sorted bound list; the
function fields are fixed at construction, so the embedding represents
a span by its bound list and passes `next`/`cmp` to each operation.
Go's `IsEqual` on spans compares the two bound lists element by
element, i.e. it is list equality in this representation. -/

/-- The comparison-sort call `sort.Slice(newBounds, less)` of
`span.UnionBound`, with `less(i, j) = cmp(lo_i, lo_j) == -1`.  Go's
`sort.Slice` is an unstable comparison sort specified only up to "the
result is sorted by `less`"; it is modelled by insertion sort with the
matching total relation "`x` may precede `y` iff `not less(y, x)`". -/
def sortByLo (cmp : T → T → Int) (l : List (Bound T)) : List (Bound T) :=
  l.insertionSort fun x y => ¬(cmp y.Lo.Value x.Lo.Value = -1)

/-- `span.UnionBound` from `span.go`: scan the existing bounds, absorb
every bound that merges with the (growing) candidate, keep the others,
append the final candidate and re-sort by lower edge value. -/
def UnionBound (next : Option (T → T → T)) (cmp : T → T → Int)
    (s : List (Bound T)) (bound : Bound T) : List (Bound T) :=
  let p := s.foldl
    (fun (acc : List (Bound T) × Bound T) existingBound =>
      let r := UnionBounds next cmp existingBound acc.2
      if r.2 then (acc.1, r.1) else (acc.1 ++ [existingBound], acc.2))
    ([], bound)
  sortByLo cmp (p.1 ++ [p.2])

/-- `span.DifferenceBound` from `span.go`: drop bounds contained in
`y`, split bounds overlapping `y` via `Bound.Difference`, keep the
rest. -/
def DifferenceBound (cmp : T → T → Int) (s : List (Bound T))
    (y : Bound T) : List (Bound T) :=
  s.foldl
    (fun newBounds existingBound =>
      if y.Contains cmp existingBound then newBounds
      else if existingBound.Overlaps cmp y then
        newBounds ++ existingBound.Difference cmp y
      else newBounds ++ [existingBound])
    []

/-- `span.Union` from `span.go`: fold `UnionBound` over the bounds of
the other span. -/
def Union (next : Option (T → T → T)) (cmp : T → T → Int)
    (s y : List (Bound T)) : List (Bound T) :=
  y.foldl (UnionBound next cmp) s

/-- `span.Difference` from `span.go`: fold `DifferenceBound` over the
bounds of the other span. -/
def Difference (cmp : T → T → Int) (s y : List (Bound T)) :
    List (Bound T) :=
  y.foldl (DifferenceBound cmp) s

/-- `span.search` from `span.go`, i.e. `slices.BinarySearchFunc` over
the bound list with `f(a, t) = a.Position(cmp, t)`.  Binary search over
a sorted slice meets its documented contract — the smallest index whose
element compares `≥ 0` against the target (`found` iff it compares
`0`) — which is what a linear scan computes; the scan is used here
because only the contract, not the probe sequence, is observable. -/
def search (cmp : T → T → Int) (s : List (Bound T)) (t : T) : Nat × Bool :=
  match s.findIdx? fun a => decide (a.Position cmp t ≥ 0) with
  | some i => (i, (s.get? i).any fun a => decide (a.Position cmp t = 0))
  | none => (s.length, false)

/-- `span.ContainsBound` from `span.go`. -/
def ContainsBound (cmp : T → T → Int) (s : List (Bound T))
    (y : Bound T) : Bool :=
  let r := search cmp s y.Lo.Value
  if r.2 then (s.getD r.1 ⟨y.Lo, y.Hi⟩).Contains cmp y else false

/-- `span.New` from `span.go`: panics (modelled by `none`) when the
comparator or the successor function is `nil`; otherwise folds
`UnionBound` over the initial bounds starting from the empty span. -/
def NewSpan (next : Option (T → T → T)) (cmp : Option (T → T → Int))
    (bounds : List (Bound T)) : Option (List (Bound T)) :=
  match cmp with
  | none => none
  | some c =>
    match next with
    | none => none
    | some n => some (bounds.foldl (UnionBound (some n) c) [])

/-- `NewBound` from `bound.go` (the `cmp.Ordered` convenience
constructor): builds the two edges and validates them through
`NewBoundEdgesFunc` with the canonical comparator. -/
def NewBound [LinearOrder T] (loIncluded : Bool) (lo hi : T)
    (hiIncluded : Bool) : Option (Bound T) :=
  NewBoundEdgesFunc (newEdge lo loIncluded) (newEdge hi hiIncluded) cmpOf

/-- `span.FromBasicOrdered` from `span.go`: wraps every pair as a
closed bound with `NewBound` and passes a `nil` successor function to
`New`.  Go evaluates the `NewBound` calls before entering `New`, so a
panic in either place is a panic of the whole call (`none` here). -/
def FromBasicOrdered [LinearOrder T] (s : List (T × T)) :
    Option (List (Bound T)) :=
  (s.mapM fun b => NewBound true b.1 b.2 true).bind fun bounds =>
    NewSpan none (some cmpOf) bounds

/-- `span.nextInt` from `span.go` (used by `NewInt`, `NewRune`, …):
steps `v` one unit towards `t`. -/
def nextIntFn (v t : Int) : Int :=
  if v = t then v else if v < t then v + 1 else v - 1

/-! ### Parsing and formatting (`bound.go`)

Go strings are modelled by `List Char` (all inputs of interest are
ASCII, where Go's byte indexing and rune iteration agree).  The
caller-supplied value parser returns `Except ε T` for Go's
`(T, error)`; `ParseBound` either fails with its own sentinel
`ErrInvalidBound` or propagates the parser's error verbatim, which the
sum type `BoundErr ε` records. -/

/-- The error result of `ParseBound`: the package's `ErrInvalidBound`
sentinel, or the caller-supplied parser's error propagated unchanged. -/
inductive BoundErr (ε : Type) where
  | invalidBound
  | parserErr (e : ε)
deriving DecidableEq

/-- `ParseBound` from `bound.go`: decode `"[lo:hi]"`-style notation.
Checks, in source order: length at least 5, opening bracket, closing
bracket, presence of a `':'` delimiter (first occurrence), then parses
the two value substrings with the caller-supplied parser. -/
def ParseBound {ε : Type} (s : List Char)
    (parser : List Char → Except ε T) : Except (BoundErr ε) (Bound T) :=
  if s.length < 5 then .error .invalidBound
  else
    match s.head? with
    | none => .error .invalidBound
    | some c0 =>
      let loInc : Option Bool :=
        if c0 = '[' then some true else if c0 = '(' then some false else none
      match loInc with
      | none => .error .invalidBound
      | some loIncluded =>
        match s.getLast? with
        | none => .error .invalidBound
        | some cN =>
          let hiInc : Option Bool :=
            if cN = ']' then some true else if cN = ')' then some false else none
          match hiInc with
          | none => .error .invalidBound
          | some hiIncluded =>
            match s.findIdx? (· = ':') with
            | none => .error .invalidBound
            | some divider =>
              match parser ((s.drop 1).take (divider - 1)) with
              | .error e => .error (.parserErr e)
              | .ok lo =>
                match parser ((s.drop (divider + 1)).take (s.length - 1 - (divider + 1))) with
                | .error e => .error (.parserErr e)
                | .ok hi =>
                  .ok ⟨⟨lo, loIncluded⟩, ⟨hi, hiIncluded⟩⟩

/-- `boundString` from `bound.go`: bracket for the lower inclusion,
formatted lower value, `':'`, formatted upper value, bracket for the
upper inclusion.  The `fmt.Sprintf` call with the caller-chosen verb is
the caller-supplied value formatter. -/
def boundString (format : T → List Char) (lo hi : Edge T) : List Char :=
  (if lo.Included then ['['] else ['(']) ++
    format lo.Value ++ [':'] ++ format hi.Value ++
    (if hi.Included then [']'] else [')'])

/-! ### Semantic domain

The remaining definitions are the verification's semantic vocabulary
over a linear order: edge keys linearising open/closed boundaries,
the propositional forms of the boolean tests, the invariants the span
operations maintain, loop bodies of the folds named for reuse in
proofs, and small parser/formatter pairs used to instantiate the
parsing claims. -/

section Semantics

variable [LinearOrder T]

def startKey (e : Edge T) : T ×ₗ ℕ :=
  toLex (e.Value, if e.Included then 1 else 2)

def endKey (e : Edge T) : T ×ₗ ℕ :=
  toLex (e.Value, if e.Included then 1 else 0)

/-- Two bounds share at least one position in edge-key space
(the propositional form of `Bound.Overlaps`). -/
def OverlapP (a b : Bound T) : Prop :=
  startKey b.Lo ≤ endKey a.Hi ∧ startKey a.Lo ≤ endKey b.Hi

/-- Upper edge `h` may be glued to lower edge `l`: the guarded
adjacency test of `UnionBounds` (`cmp(hi, lo) <= 0` together with
`IsEdgeNear`). -/
def GlueP (next : Option (T → T → T)) (h l : Edge T) : Prop :=
  h.Value ≤ l.Value ∧ IsEdgeNear next cmpOf h l = true

/-- `a` and `b` overlap or are adjacent: exactly the condition under
which `UnionBounds` reports a merge (for valid bounds). -/
def TouchP (next : Option (T → T → T)) (a b : Bound T) : Prop :=
  OverlapP a b ∨ GlueP next a.Hi b.Lo ∨ GlueP next b.Hi a.Lo

/-- The bound construction invariant: `NewBoundEdgesFunc` accepts the
bound's edges (its two validation branches do not fire). -/
def BoundInv (b : Bound T) : Prop :=
  NewBoundEdgesFunc b.Lo b.Hi cmpOf = some b

/-- The merged bound `UnionBounds` constructs: the edge-wise hull. -/
def hull (a b : Bound T) : Bound T :=
  ⟨minEdge a.Lo b.Lo cmpOf, maxEdge a.Hi b.Hi cmpOf⟩

def NextOk (next : Option (T → T → T)) : Prop :=
  ∀ f, next = some f → ∀ v t : T, v < t → t ≤ f v t → ∀ x, v < x → t ≤ x

/-- The second key component of a lower edge. -/
def sN (e : Edge T) : ℕ := if e.Included then 1 else 2

/-- The second key component of an upper edge. -/
def eN (e : Edge T) : ℕ := if e.Included then 1 else 0

/-- The loop body of `span.UnionBound`. -/
def ubStep (next : Option (T → T → T)) (cmp : T → T → Int)
    (acc : List (Bound T) × Bound T) (existingBound : Bound T) :
    List (Bound T) × Bound T :=
  let r := UnionBounds next cmp existingBound acc.2
  if r.2 then (acc.1, r.1) else (acc.1 ++ [existingBound], acc.2)

/-- The specification's Span invariant: every bound valid, the list
sorted ascending by lower edge value, and no two bounds touching
(mergeable), which subsumes "no two bounds overlap". -/
def SpanInv (next : Option (T → T → T)) (l : List (Bound T)) : Prop :=
  (∀ x ∈ l, BoundInv x) ∧
  l.Pairwise (fun x y => x.Lo.Value ≤ y.Lo.Value) ∧
  l.Pairwise fun x y => ¬TouchP next x y

instance (b : Bound T) : Decidable (BoundInv b) :=
  inferInstanceAs (Decidable (NewBoundEdgesFunc b.Lo b.Hi cmpOf = some b))

/-- The per-bound contribution of the `span.DifferenceBound` loop. -/
def dbPiece (cmp : T → T → Int) (y e : Bound T) : List (Bound T) :=
  if y.Contains cmp e then []
  else if e.Overlaps cmp y then e.Difference cmp y
  else [e]

/-- The invariant actually preserved by `span.DifferenceBound`: every
bound valid and the list strictly separated in edge-key space (which
implies sortedness and pairwise non-overlap, but not
non-coalescibility). -/
def SpanSep (l : List (Bound T)) : Prop :=
  (∀ x ∈ l, BoundInv x) ∧ l.Pairwise fun x y => endKey x.Hi < startKey y.Lo

end Semantics

/-- A little test value parser: a non-empty all-digit string read as a
decimal integer, anything else rejected. -/
def digitsParser (s : List Char) : Except Unit Int :=
  if s ≠ [] ∧ s.all Char.isDigit then
    .ok (s.foldl (fun acc c => acc * 10 + ((c.toNat : Int) - 48)) 0)
  else .error ()

/-- A strict single-digit formatter, mutually inverse with
`digitParser1`. -/
def digitFormat (v : Int) : List Char := [Char.ofNat (v.toNat + 48)]

/-- A strict single-digit value parser accepting exactly the outputs of
`digitFormat` on digits. -/
def digitParser1 (s : List Char) : Except Unit Int :=
  match s with
  | [c] => if 48 ≤ c.toNat ∧ c.toNat ≤ 57 then .ok ((c.toNat : Int) - 48)
      else .error ()
  | _ => .error ()

/-! ### The comparator over a linear order -/

section Lemmas

variable [LinearOrder T]

theorem cmpOf_eq_negOne {a b : T} : cmpOf a b = -1 ↔ a < b := by
  unfold cmpOf
  split_ifs with h1 h2
  · simp [h1]
  · norm_num; exact le_of_lt h2
  · norm_num; exact not_lt.mp h1

theorem cmpOf_neg {a b : T} : cmpOf a b < 0 ↔ a < b := by
  unfold cmpOf
  split_ifs with h1 h2 <;> norm_num
  · exact h1
  · exact not_lt.mp h1
  · exact not_lt.mp h1

theorem cmpOf_pos {a b : T} : 0 < cmpOf a b ↔ b < a := by
  unfold cmpOf
  split_ifs with h1 h2 <;> norm_num
  · exact le_of_lt h1
  · exact h2
  · exact not_lt.mp h2

theorem cmpOf_eq_zero {a b : T} : cmpOf a b = 0 ↔ a = b := by
  unfold cmpOf
  split_ifs with h1 h2 <;> norm_num
  · exact fun h => absurd (h ▸ h1) (lt_irrefl b)
  · exact fun h => absurd (h ▸ h2) (lt_irrefl b)
  · exact le_antisymm (not_lt.mp h2) (not_lt.mp h1)

theorem cmpOf_le_zero {a b : T} : cmpOf a b ≤ 0 ↔ a ≤ b := by
  rcases lt_trichotomy a b with h | h | h
  · simp [le_of_lt (cmpOf_neg.mpr h), le_of_lt h]
  · simp [le_of_eq (cmpOf_eq_zero.mpr h), le_of_eq h]
  · have := cmpOf_pos.mpr h
    constructor
    · intro hc; omega
    · exact fun hc => absurd h (not_lt.mpr hc)

theorem cmpOf_nonneg {a b : T} : 0 ≤ cmpOf a b ↔ b ≤ a := by
  rcases lt_trichotomy b a with h | h | h
  · simp [le_of_lt (cmpOf_pos.mpr h), le_of_lt h]
  · simp [ge_of_eq (cmpOf_eq_zero.mpr h.symm), le_of_eq h]
  · have := cmpOf_neg.mpr h
    constructor
    · intro hc; omega
    · exact fun hc => absurd h (not_lt.mpr hc)

/-! ### Edge keys

Open/closed boundary arithmetic is linearised into the lexicographic
order on `T ×ₗ ℕ`: an edge used as a lower endpoint starts at
`(v, 1)` when included and `(v, 2)` when excluded, and an edge used as
an upper endpoint ends at `(v, 1)` when included and `(v, 0)` when
excluded.  All containment/overlap/separation tests of the source
become plain order comparisons between such keys. -/

theorem key_le {u v : T} {m n : ℕ} :
    (toLex (u, m) : T ×ₗ ℕ) ≤ toLex (v, n) ↔ u < v ∨ (u = v ∧ m ≤ n) :=
  Prod.Lex.le_iff _ _

theorem key_lt {u v : T} {m n : ℕ} :
    (toLex (u, m) : T ×ₗ ℕ) < toLex (v, n) ↔ u < v ∨ (u = v ∧ m < n) :=
  Prod.Lex.lt_iff _ _

theorem startKey_inj {e f : Edge T} (h : startKey e = startKey f) : e = f := by
  cases e with
  | mk ev ei =>
    cases f with
    | mk fv fi =>
      simp only [startKey, toLex, Equiv.refl_apply, Prod.mk.injEq] at h
      cases ei <;> cases fi <;> simp_all

theorem endKey_inj {e f : Edge T} (h : endKey e = endKey f) : e = f := by
  cases e with
  | mk ev ei =>
    cases f with
    | mk fv fi =>
      simp only [endKey, toLex, Equiv.refl_apply, Prod.mk.injEq] at h
      cases ei <;> cases fi <;> simp_all

theorem startKey_fst {e : Edge T} :
    (ofLex (startKey e)).1 = e.Value := by
  simp [startKey]

theorem endKey_fst {e : Edge T} :
    (ofLex (endKey e)).1 = e.Value := by
  simp [endKey]

/-- Value order transfers along key order. -/
theorem value_le_of_key_le {u v : T} {m n : ℕ}
    (h : (toLex (u, m) : T ×ₗ ℕ) ≤ toLex (v, n)) : u ≤ v := by
  rcases key_le.mp h with h | ⟨h, _⟩
  · exact le_of_lt h
  · exact le_of_eq h

/-! ### Characterisations of the boolean predicates -/

/-- The `bTooHigh` pattern of `Bound.Overlaps`: upper edge `h` lies
strictly below lower edge `l`. -/
theorem sep_pattern1 (h l : Edge T) :
    (decide (cmpOf h.Value l.Value < 0) ||
      (decide (cmpOf h.Value l.Value = 0) &&
        (!h.Included || (h.Included != l.Included)))) = true ↔
      endKey h < startKey l := by
  simp only [Bool.or_eq_true, Bool.and_eq_true, decide_eq_true_iff, cmpOf_neg,
    cmpOf_eq_zero, endKey, startKey, key_lt]
  cases hI : h.Included <;> cases lI : l.Included <;> simp

/-- The `bTooLow` pattern of `Bound.Overlaps`: upper edge `h` lies
strictly below lower edge `l`, tested from the lower edge's side. -/
theorem sep_pattern2 (l h : Edge T) :
    (decide (cmpOf l.Value h.Value > 0) ||
      (decide (cmpOf l.Value h.Value = 0) &&
        (!l.Included || (l.Included != h.Included)))) = true ↔
      endKey h < startKey l := by
  simp only [Bool.or_eq_true, Bool.and_eq_true, decide_eq_true_iff, cmpOf_pos,
    cmpOf_eq_zero, endKey, startKey, key_lt, gt_iff_lt]
  cases hI : h.Included <;> cases lI : l.Included <;> simp [eq_comm]

/-- The `startWithinA` pattern of `Bound.Contains`. -/
theorem startLe_pattern (e f : Edge T) :
    (decide (cmpOf e.Value f.Value < 0) ||
      (decide (cmpOf e.Value f.Value = 0) &&
        (e.Included || (f.Included == e.Included)))) = true ↔
      startKey e ≤ startKey f := by
  simp only [Bool.or_eq_true, Bool.and_eq_true, decide_eq_true_iff, cmpOf_neg,
    cmpOf_eq_zero, startKey, key_le]
  cases hI : e.Included <;> cases fI : f.Included <;> simp

/-- The `endWithinA` pattern of `Bound.Contains`. -/
theorem endLe_pattern (e f : Edge T) :
    (decide (cmpOf e.Value f.Value > 0) ||
      (decide (cmpOf e.Value f.Value = 0) &&
        (e.Included || (f.Included == e.Included)))) = true ↔
      endKey f ≤ endKey e := by
  simp only [Bool.or_eq_true, Bool.and_eq_true, decide_eq_true_iff, cmpOf_pos,
    cmpOf_eq_zero, endKey, key_le, gt_iff_lt]
  cases hI : e.Included <;> cases fI : f.Included <;> simp [eq_comm]

theorem overlaps_iff {a b : Bound T} :
    a.Overlaps cmpOf b = true ↔
      startKey b.Lo ≤ endKey a.Hi ∧ startKey a.Lo ≤ endKey b.Hi := by
  have h1 := sep_pattern1 a.Hi b.Lo
  have h2 := sep_pattern2 a.Lo b.Hi
  simp only [Bound.Overlaps, Bool.and_eq_true, Bool.not_eq_true']
  rw [Bool.eq_false_iff, Bool.eq_false_iff, Ne, Ne, h1, h2, not_lt, not_lt]

theorem contains_iff {a b : Bound T} :
    a.Contains cmpOf b = true ↔
      startKey a.Lo ≤ startKey b.Lo ∧ endKey b.Hi ≤ endKey a.Hi := by
  have h1 := startLe_pattern a.Lo b.Lo
  have h2 := endLe_pattern a.Hi b.Hi
  simp only [Bound.Contains, Bool.and_eq_true]
  rw [h1, h2]

theorem isEdgeNear_iff {next : Option (T → T → T)} {h l : Edge T} :
    IsEdgeNear next cmpOf h l = true ↔
      (h.Value = l.Value ∧ (h.Included = true ∨ l.Included = true)) ∨
      (∃ f, next = some f ∧ h.Included = true ∧ l.Included = true ∧
        l.Value ≤ f h.Value l.Value) := by
  unfold IsEdgeNear
  cases next with
  | none =>
    split_ifs with hc
    · simp only [Bool.and_eq_true, decide_eq_true_iff, Bool.or_eq_true] at hc
      simp [cmpOf_eq_zero.mp hc.1, hc.2]
    · simp only [Bool.and_eq_true, decide_eq_true_iff, Bool.or_eq_true,
        cmpOf_eq_zero] at hc
      simp [hc]
  | some f =>
    split_ifs with hc
    · simp only [Bool.and_eq_true, decide_eq_true_iff, Bool.or_eq_true] at hc
      simp [cmpOf_eq_zero.mp hc.1, hc.2]
    · simp only [Bool.and_eq_true, decide_eq_true_iff, Bool.or_eq_true,
        cmpOf_eq_zero] at hc
      simp only [Bool.and_eq_true, decide_eq_true_iff, cmpOf_nonneg, ge_iff_le,
        Option.some.injEq]
      constructor
      · rintro ⟨⟨hh, hl⟩, hnext⟩
        exact Or.inr ⟨f, rfl, hh, hl, hnext⟩
      · rintro (hcase | ⟨g, hg, hh, hl, hnext⟩)
        · exact absurd hcase hc
        · cases hg; exact ⟨⟨hh, hl⟩, hnext⟩

/-! ### Semantic relations -/

theorem boundInv_iff {b : Bound T} :
    BoundInv b ↔ startKey b.Lo ≤ endKey b.Hi := by
  unfold BoundInv NewBoundEdgesFunc
  split_ifs with h1 h2
  · simp only [reduceCtorEq, false_iff, not_le]
    rw [gt_iff_lt, cmpOf_pos] at h1
    simp only [startKey, endKey, key_lt]
    exact Or.inl h1
  · simp only [Bool.and_eq_true, decide_eq_true_iff, cmpOf_eq_zero,
      Bool.or_eq_true, Bool.not_eq_true'] at h2
    simp only [reduceCtorEq, false_iff, not_le]
    simp only [startKey, endKey, key_lt]
    rcases h2 with ⟨hv, hi⟩
    refine Or.inr ⟨hv.symm ▸ rfl, ?_⟩
    rcases hi with hi | hi <;> simp [hi] <;> split <;> omega
  · rw [gt_iff_lt, cmpOf_pos, not_lt] at h1
    simp only [Bool.and_eq_true, decide_eq_true_iff, cmpOf_eq_zero,
      Bool.or_eq_true, Bool.not_eq_true', not_and, not_or] at h2
    simp only [true_iff]
    rcases lt_or_eq_of_le h1 with hv | hv
    · simp only [startKey, endKey, key_le]
      exact Or.inl hv
    · rcases h2 hv with ⟨hlo, hhi⟩
      simp only [startKey, endKey, key_le, hlo, hhi]
      exact Or.inr ⟨hv, le_refl _⟩

theorem boundInv_values {b : Bound T} (h : BoundInv b) :
    b.Lo.Value ≤ b.Hi.Value := by
  rw [boundInv_iff] at h
  simpa [startKey, endKey] using value_le_of_key_le h

/-- A zero-width valid bound is closed on both ends. -/
theorem boundInv_point {b : Bound T} (h : BoundInv b)
    (hv : b.Lo.Value = b.Hi.Value) :
    b.Lo.Included = true ∧ b.Hi.Included = true := by
  rw [boundInv_iff] at h
  simp only [startKey, endKey, key_le, hv, lt_irrefl, false_or, true_and] at h
  cases hlo : b.Lo.Included <;> cases hhi : b.Hi.Included <;>
    simp [hlo, hhi] at h ⊢

theorem minEdge_eq_left {l1 l2 : Edge T} (h : startKey l1 ≤ startKey l2) :
    minEdge l1 l2 cmpOf = l1 := by
  obtain ⟨v1, i1⟩ := l1
  obtain ⟨v2, i2⟩ := l2
  simp only [startKey, key_le] at h
  unfold minEdge
  split_ifs with hgt hlt
  · rw [gt_iff_lt, cmpOf_pos] at hgt
    rcases h with h | ⟨h, -⟩
    · exact absurd hgt (asymm h)
    · exact absurd (h ▸ hgt) (lt_irrefl _)
  · rfl
  · rw [gt_iff_lt, cmpOf_pos, not_lt] at hgt
    rw [cmpOf_neg, not_lt] at hlt
    rcases h with h | ⟨-, h⟩
    · exact absurd h (not_lt.mpr hlt)
    · simp only [newEdge, Edge.mk.injEq, true_and]
      cases i1 <;> cases i2 <;> simp_all

theorem minEdge_eq_right {l1 l2 : Edge T} (h : startKey l2 ≤ startKey l1) :
    minEdge l1 l2 cmpOf = l2 := by
  obtain ⟨v1, i1⟩ := l1
  obtain ⟨v2, i2⟩ := l2
  simp only [startKey, key_le] at h
  unfold minEdge
  split_ifs with hgt hlt
  · rfl
  · rw [cmpOf_neg] at hlt
    rcases h with h | ⟨h, -⟩
    · exact absurd hlt (asymm h)
    · exact absurd (h ▸ hlt) (lt_irrefl _)
  · rw [gt_iff_lt, cmpOf_pos, not_lt] at hgt
    rw [cmpOf_neg, not_lt] at hlt
    have heq : v1 = v2 := le_antisymm hgt hlt
    subst heq
    simp only [newEdge, Edge.mk.injEq, true_and]
    rcases h with h | ⟨-, h⟩
    · exact absurd h (lt_irrefl _)
    · cases i1 <;> cases i2 <;> simp_all

theorem maxEdge_eq_left {h1 h2 : Edge T} (h : endKey h2 ≤ endKey h1) :
    maxEdge h1 h2 cmpOf = h1 := by
  obtain ⟨v1, i1⟩ := h1
  obtain ⟨v2, i2⟩ := h2
  simp only [endKey, key_le] at h
  unfold maxEdge
  split_ifs with hgt hlt
  · rfl
  · rw [cmpOf_neg] at hlt
    rcases h with h | ⟨h, -⟩
    · exact absurd hlt (asymm h)
    · exact absurd (h ▸ hlt) (lt_irrefl _)
  · rw [gt_iff_lt, cmpOf_pos, not_lt] at hgt
    rw [cmpOf_neg, not_lt] at hlt
    have heq : v1 = v2 := le_antisymm hgt hlt
    subst heq
    simp only [newEdge, Edge.mk.injEq, true_and]
    rcases h with h | ⟨-, h⟩
    · exact absurd h (lt_irrefl _)
    · cases i1 <;> cases i2 <;> simp_all

theorem maxEdge_eq_right {h1 h2 : Edge T} (h : endKey h1 ≤ endKey h2) :
    maxEdge h1 h2 cmpOf = h2 := by
  obtain ⟨v1, i1⟩ := h1
  obtain ⟨v2, i2⟩ := h2
  simp only [endKey, key_le] at h
  unfold maxEdge
  split_ifs with hgt hlt
  · rw [gt_iff_lt, cmpOf_pos] at hgt
    rcases h with h | ⟨h, -⟩
    · exact absurd hgt (asymm h)
    · exact absurd (h ▸ hgt) (lt_irrefl _)
  · rfl
  · rw [gt_iff_lt, cmpOf_pos, not_lt] at hgt
    rw [cmpOf_neg, not_lt] at hlt
    have heq : v1 = v2 := le_antisymm hgt hlt
    subst heq
    simp only [newEdge, Edge.mk.injEq, true_and]
    rcases h with h | ⟨-, h⟩
    · exact absurd h (lt_irrefl _)
    · cases i1 <;> cases i2 <;> simp_all

theorem overlapP_symm {a b : Bound T} (h : OverlapP a b) : OverlapP b a :=
  ⟨h.2, h.1⟩

theorem touchP_symm {next : Option (T → T → T)} {a b : Bound T}
    (h : TouchP next a b) : TouchP next b a := by
  rcases h with h | h | h
  · exact Or.inl (overlapP_symm h)
  · exact Or.inr (Or.inr h)
  · exact Or.inr (Or.inl h)

theorem overlapP_of_contains {a b : Bound T} (hb : BoundInv b)
    (h : a.Contains cmpOf b = true) : OverlapP a b := by
  rw [contains_iff] at h
  rw [boundInv_iff] at hb
  exact ⟨le_trans hb h.2, le_trans h.1 hb⟩

/-- For a valid `a` glued below `b`, `a`'s start precedes `b`'s. -/
theorem glue_start_le {next : Option (T → T → T)} {a b : Bound T}
    (ha : BoundInv a) (hg : GlueP next a.Hi b.Lo) :
    startKey a.Lo ≤ startKey b.Lo := by
  have hva : a.Lo.Value ≤ a.Hi.Value := boundInv_values ha
  have hvg : a.Hi.Value ≤ b.Lo.Value := hg.1
  rcases lt_or_eq_of_le (le_trans hva hvg) with hv | hv
  · simp only [startKey, key_le]
    exact Or.inl hv
  · have hpt : a.Lo.Included = true ∧ a.Hi.Included = true :=
      boundInv_point ha (le_antisymm hva (hv ▸ hvg))
    simp only [startKey, key_le, hpt.1]
    refine Or.inr ⟨hv, ?_⟩
    cases b.Lo.Included <;> simp

/-- For a valid `b` glued above `a`, `a`'s end precedes `b`'s. -/
theorem glue_end_le {next : Option (T → T → T)} {a b : Bound T}
    (hb : BoundInv b) (hg : GlueP next a.Hi b.Lo) :
    endKey a.Hi ≤ endKey b.Hi := by
  have hvb : b.Lo.Value ≤ b.Hi.Value := boundInv_values hb
  have hvg : a.Hi.Value ≤ b.Lo.Value := hg.1
  rcases lt_or_eq_of_le (le_trans hvg hvb) with hv | hv
  · simp only [endKey, key_le]
    exact Or.inl hv
  · have hbv : b.Lo.Value = b.Hi.Value := le_antisymm hvb (hv ▸ hvg)
    have hpt := boundInv_point hb hbv
    simp only [endKey, key_le, hpt.2]
    refine Or.inr ⟨hv, ?_⟩
    cases a.Hi.Included <;> simp

theorem minEdge_cases (l1 l2 : Edge T) :
    minEdge l1 l2 cmpOf = l1 ∨ minEdge l1 l2 cmpOf = l2 := by
  rcases le_total (startKey l1) (startKey l2) with h | h
  · exact Or.inl (minEdge_eq_left h)
  · exact Or.inr (minEdge_eq_right h)

theorem maxEdge_cases (h1 h2 : Edge T) :
    maxEdge h1 h2 cmpOf = h1 ∨ maxEdge h1 h2 cmpOf = h2 := by
  rcases le_total (endKey h1) (endKey h2) with h | h
  · exact Or.inr (maxEdge_eq_right h)
  · exact Or.inl (maxEdge_eq_left h)

theorem startKey_minEdge_le_left (l1 l2 : Edge T) :
    startKey (minEdge l1 l2 cmpOf) ≤ startKey l1 := by
  rcases le_total (startKey l1) (startKey l2) with h | h
  · rw [minEdge_eq_left h]
  · rw [minEdge_eq_right h]; exact h

theorem startKey_minEdge_le_right (l1 l2 : Edge T) :
    startKey (minEdge l1 l2 cmpOf) ≤ startKey l2 := by
  rcases le_total (startKey l1) (startKey l2) with h | h
  · rw [minEdge_eq_left h]; exact h
  · rw [minEdge_eq_right h]

theorem endKey_maxEdge_ge_left (h1 h2 : Edge T) :
    endKey h1 ≤ endKey (maxEdge h1 h2 cmpOf) := by
  rcases le_total (endKey h1) (endKey h2) with h | h
  · rw [maxEdge_eq_right h]; exact h
  · rw [maxEdge_eq_left h]

theorem endKey_maxEdge_ge_right (h1 h2 : Edge T) :
    endKey h2 ≤ endKey (maxEdge h1 h2 cmpOf) := by
  rcases le_total (endKey h1) (endKey h2) with h | h
  · rw [maxEdge_eq_right h]
  · rw [maxEdge_eq_left h]; exact h

theorem hull_boundInv {a b : Bound T} (ha : BoundInv a) (hb : BoundInv b) :
    BoundInv (hull a b) := by
  rw [boundInv_iff] at ha ⊢
  calc startKey (hull a b).Lo ≤ startKey a.Lo := startKey_minEdge_le_left _ _
    _ ≤ endKey a.Hi := ha
    _ ≤ endKey (hull a b).Hi := endKey_maxEdge_ge_left _ _

theorem minEdge_comm (l1 l2 : Edge T) :
    minEdge l1 l2 cmpOf = minEdge l2 l1 cmpOf := by
  rcases lt_trichotomy (startKey l1) (startKey l2) with h | h | h
  · rw [minEdge_eq_left h.le, minEdge_eq_right h.le]
  · rw [startKey_inj h]
  · rw [minEdge_eq_right h.le, minEdge_eq_left h.le]

theorem maxEdge_comm (h1 h2 : Edge T) :
    maxEdge h1 h2 cmpOf = maxEdge h2 h1 cmpOf := by
  rcases lt_trichotomy (endKey h1) (endKey h2) with h | h | h
  · rw [maxEdge_eq_right h.le, maxEdge_eq_left h.le]
  · rw [endKey_inj h]
  · rw [maxEdge_eq_left h.le, maxEdge_eq_right h.le]

theorem hull_comm {a b : Bound T} : hull a b = hull b a := by
  unfold hull
  rw [minEdge_comm, maxEdge_comm]

/-- `UnionBounds` on non-touching valid bounds: a copy of the first
bound and `false`. -/
theorem unionBounds_not_touch {next : Option (T → T → T)} {a b : Bound T}
    (ha : BoundInv a) (hb : BoundInv b) (ht : ¬TouchP next a b) :
    UnionBounds next cmpOf a b = (a, false) := by
  unfold UnionBounds
  split_ifs with hc1 hc2 hc3 hc4 hc5
  · exact absurd (Or.inl (overlapP_of_contains hb hc1)) ht
  · exact absurd (Or.inl (overlapP_symm (overlapP_of_contains ha hc2))) ht
  · simp only [Bool.and_eq_true, decide_eq_true_iff, cmpOf_le_zero] at hc4
    exact absurd (Or.inr (Or.inl ⟨hc4.1, hc4.2⟩)) ht
  · simp only [Bool.and_eq_true, decide_eq_true_iff, cmpOf_le_zero] at hc5
    exact absurd (Or.inr (Or.inr ⟨hc5.1, hc5.2⟩)) ht
  · rfl
  · have hov : a.Overlaps cmpOf b = true := by
      revert hc3; cases a.Overlaps cmpOf b <;> simp
    exact absurd (Or.inl (overlaps_iff.mp hov)) ht

/-- `UnionBounds` on touching valid bounds: the edge-wise hull and
`true`. -/
theorem unionBounds_touch {next : Option (T → T → T)} {a b : Bound T}
    (ha : BoundInv a) (hb : BoundInv b) (ht : TouchP next a b) :
    UnionBounds next cmpOf a b = (hull a b, true) := by
  unfold UnionBounds
  split_ifs with hc1 hc2 hc3 hc4 hc5
  · rw [contains_iff] at hc1
    simp only [hull, minEdge_eq_left hc1.1, maxEdge_eq_left hc1.2]
  · rw [contains_iff] at hc2
    simp only [hull, minEdge_eq_right hc2.1, maxEdge_eq_right hc2.2]
  · simp only [Bool.and_eq_true, decide_eq_true_iff, cmpOf_le_zero] at hc4
    have hg : GlueP next a.Hi b.Lo := ⟨hc4.1, hc4.2⟩
    simp only [hull, minEdge_eq_left (glue_start_le ha hg),
      maxEdge_eq_right (glue_end_le hb hg)]
  · simp only [Bool.and_eq_true, decide_eq_true_iff, cmpOf_le_zero] at hc5
    have hg : GlueP next b.Hi a.Lo := ⟨hc5.1, hc5.2⟩
    simp only [hull, minEdge_eq_right (glue_start_le hb hg),
      maxEdge_eq_left (glue_end_le ha hg)]
  · exfalso
    have hov : a.Overlaps cmpOf b = false := by
      revert hc3; cases a.Overlaps cmpOf b <;> simp
    rcases ht with hov2 | hg | hg
    · have hcontra := overlaps_iff.mpr hov2
      rw [hov] at hcontra
      exact Bool.false_ne_true hcontra
    · refine hc4 ?_
      simp only [Bool.and_eq_true, decide_eq_true_iff, cmpOf_le_zero]
      exact ⟨hg.1, hg.2⟩
    · refine hc5 ?_
      simp only [Bool.and_eq_true, decide_eq_true_iff, cmpOf_le_zero]
      exact ⟨hg.1, hg.2⟩
  · rfl

theorem unionBounds_snd_iff {next : Option (T → T → T)} {a b : Bound T}
    (ha : BoundInv a) (hb : BoundInv b) :
    (UnionBounds next cmpOf a b).2 = true ↔ TouchP next a b := by
  constructor
  · intro h
    by_contra ht
    rw [unionBounds_not_touch ha hb ht] at h
    simp at h
  · intro ht
    rw [unionBounds_touch ha hb ht]

/-! ### Sound successor functions

The specification defines the successor callback as "a domain-supplied
callback answering: is there a third value strictly between these two
edges?".  `NextOk` states that contract: whenever the callback claims
adjacency (advancing from `v` at least to `t`), no value lies strictly
between `v` and `t`.  `nextInt` (and `math.Nextafter`, trivially, since
it never advances to `t` for `v < t`) satisfies it. -/

theorem key_value_le {x y : T ×ₗ ℕ} (h : x ≤ y) :
    (ofLex x).1 ≤ (ofLex y).1 := by
  rcases (Prod.Lex.le_iff (ofLex x) (ofLex y)).mp h with h | ⟨h, -⟩
  · exact le_of_lt h
  · exact le_of_eq h

theorem key_cases_lt {x y : T ×ₗ ℕ} (h : x < y) :
    (ofLex x).1 < (ofLex y).1 ∨
      ((ofLex x).1 = (ofLex y).1 ∧ (ofLex x).2 < (ofLex y).2) :=
  (Prod.Lex.lt_iff (ofLex x) (ofLex y)).mp h

theorem key_snd_lt {x y : T ×ₗ ℕ} (h : x < y)
    (hv : (ofLex x).1 = (ofLex y).1) : (ofLex x).2 < (ofLex y).2 := by
  rcases (Prod.Lex.lt_iff (ofLex x) (ofLex y)).mp h with h | ⟨-, h⟩
  · exact absurd (hv ▸ h) (lt_irrefl _)
  · exact h

theorem key_snd_le {x y : T ×ₗ ℕ} (h : x ≤ y)
    (hv : (ofLex x).1 = (ofLex y).1) : (ofLex x).2 ≤ (ofLex y).2 := by
  rcases (Prod.Lex.le_iff (ofLex x) (ofLex y)).mp h with h | ⟨-, h⟩
  · exact absurd (hv ▸ h) (lt_irrefl _)
  · exact h

theorem startKey_snd {e : Edge T} : (ofLex (startKey e)).2 = sN e := rfl

theorem endKey_snd {e : Edge T} : (ofLex (endKey e)).2 = eN e := rfl

theorem sN_ge_one (e : Edge T) : 1 ≤ sN e := by
  unfold sN; split <;> omega

theorem eN_le_one (e : Edge T) : eN e ≤ 1 := by
  unfold eN; split <;> omega

/-- No valid bound fits strictly between two glued edges: if it did,
it would itself be glued to one of them at a shared value.  This is the
heart of the canonical-form argument; it needs the successor contract
(`NextOk`) because an unsound callback could claim adjacency across a
populated gap. -/
theorem glue_squeeze {next : Option (T → T → T)} (hn : NextOk next)
    {h l : Edge T} {k : Bound T} (hk : BoundInv k) (hg : GlueP next h l)
    (h1 : endKey h < startKey k.Lo) (h2 : endKey k.Hi < startKey l) :
    GlueP next h k.Lo ∨ GlueP next k.Hi l := by
  have hkk : startKey k.Lo ≤ endKey k.Hi := boundInv_iff.mp hk
  have e1 : h.Value ≤ k.Lo.Value := by
    have := key_value_le h1.le
    rwa [endKey_fst, startKey_fst] at this
  have e2 : k.Lo.Value ≤ k.Hi.Value := boundInv_values hk
  have e3 : k.Hi.Value ≤ l.Value := by
    have := key_value_le h2.le
    rwa [endKey_fst, startKey_fst] at this
  rcases isEdgeNear_iff.mp hg.2 with ⟨hv, hincl⟩ | ⟨f, hf, hhi, hli, hnext⟩
  · -- equal-value adjacency: nothing valid fits strictly in between
    exfalso
    have hA : h.Value = k.Lo.Value :=
      le_antisymm e1 ((le_trans e2 e3).trans_eq hv.symm)
    have hB : k.Lo.Value = k.Hi.Value :=
      le_antisymm e2 (e3.trans_eq (hv.symm.trans hA))
    have hC : k.Hi.Value = l.Value :=
      le_antisymm e3 ((hv.symm.trans hA).trans hB).le
    have n1 : eN h < sN k.Lo := by
      have := key_snd_lt h1 (by rw [endKey_fst, startKey_fst]; exact hA)
      rwa [endKey_snd, startKey_snd] at this
    have n2 : sN k.Lo ≤ eN k.Hi := by
      have := key_snd_le hkk (by rw [startKey_fst, endKey_fst]; exact hB)
      rwa [startKey_snd, endKey_snd] at this
    have n3 : eN k.Hi < sN l := by
      have := key_snd_lt h2 (by rw [endKey_fst, startKey_fst]; exact hC)
      rwa [endKey_snd, startKey_snd] at this
    rcases hincl with hI | hI
    · have heh : eN h = 1 := by simp [eN, hI]
      have h4 := eN_le_one k.Hi
      omega
    · have hsl : sN l = 1 := by simp [sN, hI]
      have h4 := sN_ge_one k.Lo
      have h5 := eN_le_one k.Hi
      omega
  · -- successor adjacency
    subst hf
    rcases lt_or_eq_of_le hg.1 with hlt | heq
    · have hsound := hn f rfl h.Value l.Value hlt hnext
      have h1' : h.Value < k.Lo.Value ∨
          (h.Value = k.Lo.Value ∧ eN h < sN k.Lo) := by
        rcases key_cases_lt h1 with hx | ⟨hx, hy⟩
        · left; rwa [endKey_fst, startKey_fst] at hx
        · right
          rw [endKey_fst, startKey_fst] at hx
          rw [endKey_snd, startKey_snd] at hy
          exact ⟨hx, hy⟩
      rcases h1' with hx | ⟨hx, hy⟩
      · -- k would lie strictly inside the certified gap: impossible
        exfalso
        have hl2 : l.Value ≤ k.Lo.Value := hsound _ hx
        have hEq1 : k.Lo.Value = l.Value := le_antisymm (le_trans e2 e3) hl2
        have hEq2 : k.Hi.Value = l.Value := le_antisymm e3 (hEq1 ▸ e2)
        have n2 : sN k.Lo ≤ eN k.Hi := by
          have := key_snd_le hkk
            (by rw [startKey_fst, endKey_fst]; exact hEq1.trans hEq2.symm)
          rwa [startKey_snd, endKey_snd] at this
        have n3 : eN k.Hi < sN l := by
          have := key_snd_lt h2 (by rw [endKey_fst, startKey_fst]; exact hEq2)
          rwa [endKey_snd, startKey_snd] at this
        have hsl : sN l = 1 := by simp [sN, hli]
        have h4 := sN_ge_one k.Lo
        omega
      · -- k starts exactly at h with an excluded edge: h glues to k.Lo
        left
        exact ⟨le_of_eq hx, isEdgeNear_iff.mpr (Or.inl ⟨hx, Or.inl hhi⟩)⟩
    · -- equal values with both edges included: nothing fits in between
      exfalso
      have hA : h.Value = k.Lo.Value :=
        le_antisymm e1 ((le_trans e2 e3).trans_eq heq.symm)
      have hB : k.Lo.Value = k.Hi.Value :=
        le_antisymm e2 (e3.trans_eq (heq.symm.trans hA))
      have n1 : eN h < sN k.Lo := by
        have := key_snd_lt h1 (by rw [endKey_fst, startKey_fst]; exact hA)
        rwa [endKey_snd, startKey_snd] at this
      have n2 : sN k.Lo ≤ eN k.Hi := by
        have := key_snd_le hkk (by rw [startKey_fst, endKey_fst]; exact hB)
        rwa [startKey_snd, endKey_snd] at this
      have heh : eN h = 1 := by simp [eN, hhi]
      have h4 := eN_le_one k.Hi
      omega

theorem key_lt_fst {x y : T ×ₗ ℕ} (h : (ofLex x).1 < (ofLex y).1) : x < y :=
  (Prod.Lex.lt_iff (ofLex x) (ofLex y)).mpr (Or.inl h)

theorem key_le_fst_snd {x y : T ×ₗ ℕ} (h1 : (ofLex x).1 = (ofLex y).1)
    (h2 : (ofLex x).2 ≤ (ofLex y).2) : x ≤ y :=
  (Prod.Lex.le_iff (ofLex x) (ofLex y)).mpr (Or.inr ⟨h1, h2⟩)

theorem included_of_sN_le {e f : Edge T} (h : sN e ≤ sN f)
    (hf : f.Included = true) : e.Included = true := by
  cases hI : e.Included
  · simp [sN, hI, hf] at h
  · rfl

theorem included_of_eN_le {e f : Edge T} (h : eN e ≤ eN f)
    (he : e.Included = true) : f.Included = true := by
  cases hI : f.Included
  · simp [eN, hI, he] at h
  · rfl

/-- Touching is preserved when the partner grows to a hull: if `k`
touches `c`, it touches `hull c e`.  Requires the successor contract:
an unsound callback could certify a gap whose hull partner swallows the
glue point. -/
theorem touch_hull_mono {next : Option (T → T → T)} (hn : NextOk next)
    {k c e : Bound T} (hk : BoundInv k) (hc : BoundInv c) (he : BoundInv e)
    (ht : TouchP next k c) : TouchP next k (hull c e) := by
  rcases ht with hov | hg | hg
  · -- overlap is monotone in the hull
    left
    refine ⟨le_trans (startKey_minEdge_le_left c.Lo e.Lo) hov.1,
      le_trans hov.2 (endKey_maxEdge_ge_left c.Hi e.Hi)⟩
  · -- k.Hi glued below c.Lo
    rcases le_total (startKey c.Lo) (startKey e.Lo) with hcm | hcm
    · right; left
      have hLo : (hull c e).Lo = c.Lo := by
        simp only [hull]; rw [minEdge_eq_left hcm]
      rw [hLo]; exact hg
    · have hLo : (hull c e).Lo = e.Lo := by
        simp only [hull]; rw [minEdge_eq_right hcm]
      have hev : e.Lo.Value ≤ c.Lo.Value := by
        have := key_value_le hcm
        rwa [startKey_fst, startKey_fst] at this
      rcases lt_or_eq_of_le hg.1 with hvlt | hveq
      · -- strict gap between k.Hi and c.Lo, certified by the successor
        rcases isEdgeNear_iff.mp hg.2 with ⟨hveq2, -⟩ | ⟨f, hf, hkI, hcI, hnext⟩
        · exact absurd hveq2 (ne_of_lt hvlt)
        rcases lt_trichotomy e.Lo.Value k.Hi.Value with hel | hel | hel
        · -- e starts strictly below k.Hi: overlap with hull
          left
          constructor
          · rw [hLo]
            exact le_of_lt (key_lt_fst (by rw [startKey_fst, endKey_fst]; exact hel))
          · have h1 : endKey k.Hi ≤ endKey c.Hi :=
              le_of_lt (key_lt_fst (by
                rw [endKey_fst, endKey_fst]
                exact lt_of_lt_of_le hvlt (boundInv_values hc)))
            exact le_trans (le_trans (boundInv_iff.mp hk) h1)
              (endKey_maxEdge_ge_left c.Hi e.Hi)
        · -- e starts exactly at k.Hi (which is included): direct glue
          right; left
          rw [hLo]
          exact ⟨le_of_eq hel.symm,
            isEdgeNear_iff.mpr (Or.inl ⟨hel.symm, Or.inl hkI⟩)⟩
        · -- e starts inside the certified gap: it must start at c.Lo
          have hsound := hn f hf k.Hi.Value c.Lo.Value hvlt hnext
          have heqv : e.Lo.Value = c.Lo.Value :=
            le_antisymm hev (hsound _ hel)
          right; left
          rw [hLo]
          refine ⟨le_of_lt hel, isEdgeNear_iff.mpr (Or.inr ⟨f, hf, hkI, ?_, ?_⟩)⟩
          · have hsn : sN e.Lo ≤ sN c.Lo := by
              have := key_snd_le hcm
                (by rw [startKey_fst, startKey_fst]; exact heqv)
              rwa [startKey_snd, startKey_snd] at this
            exact included_of_sN_le hsn hcI
          · rw [heqv]; exact hnext
      · -- k.Hi.Value = c.Lo.Value
        have hincl : k.Hi.Included = true ∨ c.Lo.Included = true := by
          rcases isEdgeNear_iff.mp hg.2 with ⟨-, hi⟩ | ⟨f, -, hkI, -, -⟩
          · exact hi
          · exact Or.inl hkI
        have hev2 : e.Lo.Value ≤ k.Hi.Value := hveq ▸ hev
        rcases lt_or_eq_of_le hev2 with hel | hel
        · -- e starts strictly below k.Hi: overlap with hull
          left
          constructor
          · rw [hLo]
            exact le_of_lt (key_lt_fst (by rw [startKey_fst, endKey_fst]; exact hel))
          · have hkc2 : endKey k.Hi ≤ endKey c.Hi := by
              have hcc : c.Lo.Value ≤ c.Hi.Value := boundInv_values hc
              rcases lt_or_eq_of_le (hveq.le.trans hcc) with hx | hx
              · exact le_of_lt (key_lt_fst (by rw [endKey_fst, endKey_fst]; exact hx))
              · have hcpt := boundInv_point hc (hveq.symm.trans hx)
                refine key_le_fst_snd (by rw [endKey_fst, endKey_fst]; exact hx) ?_
                rw [endKey_snd, endKey_snd]
                have h1 := eN_le_one k.Hi
                have h2 : eN c.Hi = 1 := by simp [eN, hcpt.2]
                omega
            exact le_trans (le_trans (boundInv_iff.mp hk) hkc2)
              (endKey_maxEdge_ge_left c.Hi e.Hi)
        · -- e starts exactly at k.Hi
          by_cases hkeI : k.Hi.Included = true ∨ e.Lo.Included = true
          · right; left
            rw [hLo]
            exact ⟨le_of_eq hel.symm, isEdgeNear_iff.mpr (Or.inl ⟨hel.symm, hkeI⟩)⟩
          · exfalso
            push_neg at hkeI
            obtain ⟨hkF, heF⟩ := hkeI
            have hcI : c.Lo.Included = true := by
              rcases hincl with hi | hi
              · exact absurd hi hkF
              · exact hi
            have hsn : sN e.Lo ≤ sN c.Lo := by
              have := key_snd_le hcm
                (by rw [startKey_fst, startKey_fst]; exact hel.trans hveq)
              rwa [startKey_snd, startKey_snd] at this
            have h1 : sN e.Lo = 2 := by
              simp [sN, Bool.eq_false_iff.mpr heF]
            have h2 : sN c.Lo = 1 := by simp [sN, hcI]
            omega
  · -- c.Hi glued below k.Lo: mirror of the previous case
    rcases le_total (endKey e.Hi) (endKey c.Hi) with hcm | hcm
    · right; right
      have hHi : (hull c e).Hi = c.Hi := by
        simp only [hull]; rw [maxEdge_eq_left hcm]
      rw [hHi]; exact hg
    · have hHi : (hull c e).Hi = e.Hi := by
        simp only [hull]; rw [maxEdge_eq_right hcm]
      have hev : c.Hi.Value ≤ e.Hi.Value := by
        have := key_value_le hcm
        rwa [endKey_fst, endKey_fst] at this
      rcases lt_or_eq_of_le hg.1 with hvlt | hveq
      · rcases isEdgeNear_iff.mp hg.2 with ⟨hveq2, -⟩ | ⟨f, hf, hcI, hkI, hnext⟩
        · exact absurd hveq2 (ne_of_lt hvlt)
        rcases lt_trichotomy k.Lo.Value e.Hi.Value with hel | hel | hel
        · -- k starts strictly below e.Hi: overlap with hull
          left
          constructor
          · have h1 : startKey c.Lo ≤ endKey k.Hi :=
              le_of_lt (key_lt_fst (by
                rw [startKey_fst, endKey_fst]
                exact lt_of_le_of_lt (boundInv_values hc)
                  (lt_of_lt_of_le hvlt (boundInv_values hk))))
            exact le_trans (startKey_minEdge_le_left c.Lo e.Lo) h1
          · rw [hHi]
            exact le_of_lt (key_lt_fst (by rw [startKey_fst, endKey_fst]; exact hel))
        · -- k starts exactly at e.Hi (k.Lo included): direct glue
          right; right
          rw [hHi]
          exact ⟨le_of_eq hel.symm,
            isEdgeNear_iff.mpr (Or.inl ⟨hel.symm, Or.inr hkI⟩)⟩
        · -- e ends inside the certified gap: it must end at c.Hi
          have hsound := hn f hf c.Hi.Value k.Lo.Value hvlt hnext
          have hnotlt : ¬(c.Hi.Value < e.Hi.Value) := fun hx =>
            absurd (hsound _ hx) (not_le.mpr hel)
          have heqv : e.Hi.Value = c.Hi.Value :=
            le_antisymm (not_lt.mp hnotlt) hev
          right; right
          rw [hHi]
          refine ⟨le_of_lt hel, isEdgeNear_iff.mpr (Or.inr ⟨f, hf, ?_, hkI, ?_⟩)⟩
          · have hsn : eN c.Hi ≤ eN e.Hi := by
              have := key_snd_le hcm
                (by rw [endKey_fst, endKey_fst]; exact heqv.symm)
              rwa [endKey_snd, endKey_snd] at this
            exact included_of_eN_le hsn hcI
          · rw [heqv]; exact hnext
      · -- c.Hi.Value = k.Lo.Value
        have hincl : c.Hi.Included = true ∨ k.Lo.Included = true := by
          rcases isEdgeNear_iff.mp hg.2 with ⟨-, hi⟩ | ⟨f, -, hcI, -, -⟩
          · exact hi
          · exact Or.inl hcI
        have hev2 : k.Lo.Value ≤ e.Hi.Value := hveq ▸ hev
        rcases lt_or_eq_of_le hev2 with hel | hel
        · left
          constructor
          · have hkc2 : startKey c.Lo ≤ endKey k.Hi := by
              have hcc : c.Lo.Value ≤ c.Hi.Value := boundInv_values hc
              have hkk2 : k.Lo.Value ≤ k.Hi.Value := boundInv_values hk
              rcases lt_or_eq_of_le (hcc.trans (hveq.le.trans hkk2)) with hx | hx
              · exact le_of_lt (key_lt_fst (by rw [startKey_fst, endKey_fst]; exact hx))
              · have hcv : c.Lo.Value = c.Hi.Value :=
                  le_antisymm hcc ((hveq.le.trans hkk2).trans_eq hx.symm)
                have hcpt := boundInv_point hc hcv
                have hkv : k.Lo.Value = k.Hi.Value :=
                  le_antisymm hkk2 ((hx.symm.le.trans hcc).trans_eq hveq)
                have hkpt := boundInv_point hk hkv
                refine key_le_fst_snd (by rw [startKey_fst, endKey_fst]; exact hx) ?_
                rw [startKey_snd, endKey_snd]
                have h1 : sN c.Lo = 1 := by simp [sN, hcpt.1]
                have h2 : eN k.Hi = 1 := by simp [eN, hkpt.2]
                omega
            exact le_trans (startKey_minEdge_le_left c.Lo e.Lo) hkc2
          · rw [hHi]
            exact le_of_lt (key_lt_fst (by rw [startKey_fst, endKey_fst]; exact hel))
        · by_cases hkeI : e.Hi.Included = true ∨ k.Lo.Included = true
          · right; right
            rw [hHi]
            exact ⟨le_of_eq hel.symm, isEdgeNear_iff.mpr (Or.inl ⟨hel.symm, hkeI⟩)⟩
          · exfalso
            push_neg at hkeI
            obtain ⟨heF, hkF⟩ := hkeI
            have hcI : c.Hi.Included = true := by
              rcases hincl with hi | hi
              · exact hi
              · exact absurd hi hkF
            have hsn : eN c.Hi ≤ eN e.Hi := by
              have := key_snd_le hcm
                (by rw [endKey_fst, endKey_fst]; exact hveq.trans hel)
              rwa [endKey_snd, endKey_snd] at this
            have h1 : eN e.Hi = 0 := by
              simp [eN, Bool.eq_false_iff.mpr heF]
            have h2 : eN c.Hi = 1 := by simp [eN, hcI]
            omega

/-- A valid bound cannot sit at a single value squeezed between an
upper edge strictly below it on one side and the start of a valid
region on the other. -/
theorem squeeze_impossible {B C : Edge T} {k : Bound T} (hk : BoundInv k)
    (q3 : endKey k.Hi < startKey B) (q4 : startKey B ≤ endKey C)
    (v1 : k.Lo.Value = k.Hi.Value) (v2 : k.Hi.Value = B.Value)
    (v3 : B.Value = C.Value) : False := by
  have n2 : sN k.Lo ≤ eN k.Hi := by
    have := key_snd_le (boundInv_iff.mp hk)
      (by rw [startKey_fst, endKey_fst]; exact v1)
    rwa [startKey_snd, endKey_snd] at this
  have n3 : eN k.Hi < sN B := by
    have := key_snd_lt q3 (by rw [endKey_fst, startKey_fst]; exact v2)
    rwa [endKey_snd, startKey_snd] at this
  have n4 : sN B ≤ eN C := by
    have := key_snd_le q4 (by rw [startKey_fst, endKey_fst]; exact v3)
    rwa [startKey_snd, endKey_snd] at this
  have h1 := sN_ge_one k.Lo
  have h2 := eN_le_one k.Hi
  have h3 := eN_le_one C
  omega

/-- Auxiliary for `touch_hull_cover`: the overlap case, with the
hull's lower edge coming from `c`. -/
theorem overlap_hull_aux {next : Option (T → T → T)} (hn : NextOk next)
    {k c e : Bound T} (hk : BoundInv k) (hc : BoundInv c) (he : BoundInv e)
    (hce : TouchP next c e)
    (ho1 : startKey c.Lo ≤ endKey k.Hi)
    (ho2 : startKey k.Lo ≤ endKey (maxEdge c.Hi e.Hi cmpOf))
    (hkc : ¬TouchP next k c) (hke : ¬TouchP next k e) : False := by
  unfold TouchP at hkc hke
  push_neg at hkc hke
  obtain ⟨hkc1, hkc2, hkc3⟩ := hkc
  obtain ⟨hke1, hke2, hke3⟩ := hke
  have hsq1 : endKey c.Hi < startKey k.Lo :=
    not_le.mp fun hle => hkc1 ⟨ho1, hle⟩
  rcases maxEdge_cases c.Hi e.Hi with hM | hM <;> rw [hM] at ho2
  · exact absurd ho2 (not_le.mpr hsq1)
  · have hsq2 : endKey k.Hi < startKey e.Lo :=
      not_le.mp fun hle => hke1 ⟨hle, ho2⟩
    rcases hce with hceo | hceg | hceg
    · -- c and e overlap yet k fits strictly between them: impossible
      have : endKey c.Hi < startKey e.Lo :=
        lt_trans (lt_of_lt_of_le hsq1 (boundInv_iff.mp hk)) hsq2
      exact absurd hceo.1 (not_le.mpr this)
    · -- c glued below e: the squeeze lemma applies
      rcases glue_squeeze hn hk hceg hsq1 hsq2 with g | g
      · exact hkc3 g
      · exact hke2 g
    · -- e glued below c while k sits between c's end and e's start:
      -- forces every value to coincide, contradicting k's validity
      have w1 : c.Lo.Value ≤ c.Hi.Value := boundInv_values hc
      have w2 : c.Hi.Value ≤ k.Lo.Value := by
        have := key_value_le hsq1.le
        rwa [endKey_fst, startKey_fst] at this
      have w3 : k.Lo.Value ≤ k.Hi.Value := boundInv_values hk
      have w4 : k.Hi.Value ≤ e.Lo.Value := by
        have := key_value_le hsq2.le
        rwa [endKey_fst, startKey_fst] at this
      have w5 : e.Lo.Value ≤ e.Hi.Value := boundInv_values he
      have w6 : e.Hi.Value ≤ c.Lo.Value := hceg.1
      have v1 : k.Lo.Value = k.Hi.Value :=
        le_antisymm w3 (w4.trans (w5.trans (w6.trans (w1.trans w2))))
      have v2 : k.Hi.Value = e.Lo.Value :=
        le_antisymm w4 (w5.trans (w6.trans (w1.trans (w2.trans w3))))
      have v3 : e.Lo.Value = e.Hi.Value :=
        le_antisymm w5 (w6.trans (w1.trans (w2.trans (w3.trans w4))))
      exact squeeze_impossible hk hsq2 (boundInv_iff.mp he) v1 v2 v3

/-- The bridge lemma: a bound touching the hull of two touching bounds
touches one of them.  Together with `touch_hull_mono` this says the
merged-set structure of `span.UnionBound` is determined by the
pairwise touching relation. -/
theorem touch_hull_cover {next : Option (T → T → T)} (hn : NextOk next)
    {k c e : Bound T} (hk : BoundInv k) (hc : BoundInv c) (he : BoundInv e)
    (hce : TouchP next c e) (h : TouchP next k (hull c e)) :
    TouchP next k c ∨ TouchP next k e := by
  by_contra hcon
  push_neg at hcon
  obtain ⟨hkc, hke⟩ := hcon
  rcases h with hov | hg | hg
  · obtain ⟨ho1, ho2⟩ := hov
    have hLo : (hull c e).Lo = minEdge c.Lo e.Lo cmpOf := rfl
    have hHi : (hull c e).Hi = maxEdge c.Hi e.Hi cmpOf := rfl
    rw [hLo] at ho1
    rw [hHi] at ho2
    rcases minEdge_cases c.Lo e.Lo with hm | hm <;> rw [hm] at ho1
    · exact overlap_hull_aux hn hk hc he hce ho1 ho2 hkc hke
    · have hce' : TouchP next e c := touchP_symm hce
      have ho2' : startKey k.Lo ≤ endKey (maxEdge e.Hi c.Hi cmpOf) := by
        rwa [maxEdge_comm] at ho2
      exact overlap_hull_aux hn hk he hc hce' ho1 ho2' hke hkc
  · have hLo : (hull c e).Lo = minEdge c.Lo e.Lo cmpOf := rfl
    rw [hLo] at hg
    rcases minEdge_cases c.Lo e.Lo with hm | hm <;> rw [hm] at hg
    · exact hkc (Or.inr (Or.inl hg))
    · exact hke (Or.inr (Or.inl hg))
  · have hHi : (hull c e).Hi = maxEdge c.Hi e.Hi cmpOf := rfl
    rw [hHi] at hg
    rcases maxEdge_cases c.Hi e.Hi with hm | hm <;> rw [hm] at hg
    · exact hkc (Or.inr (Or.inr hg))
    · exact hke (Or.inr (Or.inr hg))

/-! ### The `span.UnionBound` fold -/

theorem unionBound_eq_fold (next : Option (T → T → T)) (cmp : T → T → Int)
    (s : List (Bound T)) (bound : Bound T) :
    UnionBound next cmp s bound =
      sortByLo cmp ((s.foldl (ubStep next cmp) ([], bound)).1 ++
        [(s.foldl (ubStep next cmp) ([], bound)).2]) := rfl

theorem ubfold_shift (next : Option (T → T → T)) (cmp : T → T → Int)
    (l : List (Bound T)) (nb : List (Bound T)) (cand : Bound T) :
    l.foldl (ubStep next cmp) (nb, cand) =
      (nb ++ (l.foldl (ubStep next cmp) ([], cand)).1,
        (l.foldl (ubStep next cmp) ([], cand)).2) := by
  induction l generalizing nb cand with
  | nil => simp
  | cons e rest ih =>
    simp only [List.foldl_cons, ubStep]
    by_cases hr : (UnionBounds next cmp e cand).2 = true
    · rw [if_pos hr, if_pos hr]
      exact ih nb _
    · rw [if_neg hr, if_neg hr]
      simp only [List.nil_append]
      rw [ih (nb ++ [e]) cand, ih [e] cand]
      simp

/-- The single induction giving every property of the candidate-merge
loop of `span.UnionBound` at once: the final candidate is valid, the
kept bounds form a sublist of the input, no kept bound touches the
final candidate, and no outside bound that touched neither the input
bounds nor the initial candidate touches the final candidate. -/
theorem ubfold_props {next : Option (T → T → T)} (hn : NextOk next)
    (l : List (Bound T)) (cand : Bound T)
    (hval : ∀ x ∈ l, BoundInv x) (hcand : BoundInv cand)
    (hpair : l.Pairwise fun x y => ¬TouchP next x y) :
    BoundInv (l.foldl (ubStep next cmpOf) ([], cand)).2 ∧
    (l.foldl (ubStep next cmpOf) ([], cand)).1.Sublist l ∧
    (∀ x ∈ (l.foldl (ubStep next cmpOf) ([], cand)).1,
      ¬TouchP next x (l.foldl (ubStep next cmpOf) ([], cand)).2) ∧
    (∀ g : Bound T, BoundInv g → ¬TouchP next g cand →
      (∀ x ∈ l, ¬TouchP next g x) →
      ¬TouchP next g (l.foldl (ubStep next cmpOf) ([], cand)).2) := by
  induction l generalizing cand with
  | nil =>
    refine ⟨hcand, List.Sublist.refl _, ?_, ?_⟩
    · intro x hx; simp at hx
    · intro g _ hgc _; exact hgc
  | cons e rest ih =>
    have hev : BoundInv e := hval e (by simp)
    have hrval : ∀ x ∈ rest, BoundInv x := fun x hx => hval x (by simp [hx])
    have hrpair : rest.Pairwise fun x y => ¬TouchP next x y :=
      (List.pairwise_cons.mp hpair).2
    have hepair : ∀ x ∈ rest, ¬TouchP next e x :=
      (List.pairwise_cons.mp hpair).1
    simp only [List.foldl_cons, ubStep]
    by_cases hr : (UnionBounds next cmpOf e cand).2 = true
    · rw [if_pos hr]
      have htouch : TouchP next e cand := (unionBounds_snd_iff hev hcand).mp hr
      have hfst : (UnionBounds next cmpOf e cand).1 = hull e cand := by
        rw [unionBounds_touch hev hcand htouch]
      rw [hfst]
      have hcand' : BoundInv (hull e cand) := hull_boundInv hev hcand
      obtain ⟨ih1, ih2, ih3, ih4⟩ := ih (hull e cand) hrval hcand' hrpair
      refine ⟨ih1, ih2.trans (List.sublist_cons_self e rest), ih3, ?_⟩
      · intro g hg hgc hgl
        refine ih4 g hg ?_ (fun x hx => hgl x (by simp [hx]))
        intro hghull
        rcases touch_hull_cover hn hg hev hcand htouch hghull with h | h
        · exact hgl e (by simp) h
        · exact hgc h
    · rw [if_neg hr]
      have hntouch : ¬TouchP next e cand := fun ht =>
        hr ((unionBounds_snd_iff hev hcand).mpr ht)
      simp only [List.nil_append]
      rw [ubfold_shift]
      obtain ⟨ih1, ih2, ih3, ih4⟩ := ih cand hrval hcand hrpair
      refine ⟨ih1, ?_, ?_, ?_⟩
      · simpa using List.Sublist.cons₂ e ih2
      · intro x hx
        simp only [List.singleton_append, List.mem_cons] at hx
        rcases hx with rfl | hx
        · exact ih4 x hev hntouch hepair
        · exact ih3 x hx
      · intro g hg hgc hgl
        exact ih4 g hg hgc fun x hx => hgl x (by simp [hx])

/-! ### Sorting -/

theorem sortByLo_perm (cmp : T → T → Int) (l : List (Bound T)) :
    List.Perm (sortByLo cmp l) l :=
  List.perm_insertionSort _ l

theorem sortByLo_single (cmp : T → T → Int) (x : Bound T) :
    sortByLo cmp [x] = [x] := rfl

theorem sortByLo_sorted (l : List (Bound T)) :
    (sortByLo (cmpOf (T := T)) l).Pairwise
      fun x y => ¬(cmpOf y.Lo.Value x.Lo.Value = -1) := by
  haveI ht : IsTotal (Bound T)
      (fun x y => ¬(cmpOf y.Lo.Value x.Lo.Value = -1)) := by
    constructor
    intro a b
    by_cases h : cmpOf b.Lo.Value a.Lo.Value = -1
    · right
      rw [cmpOf_eq_negOne]
      exact asymm (cmpOf_eq_negOne.mp h)
    · left; exact h
  haveI htr : IsTrans (Bound T)
      (fun x y => ¬(cmpOf y.Lo.Value x.Lo.Value = -1)) := by
    constructor
    intro a b c hab hbc
    rw [cmpOf_eq_negOne] at hab hbc ⊢
    exact not_lt.mpr (le_trans (not_lt.mp hab) (not_lt.mp hbc))
  exact List.sorted_insertionSort _ l

/-- Two valid bounds with the same lower edge value always touch:
distinct members of a canonical span have distinct lower values. -/
theorem touch_of_eq_lo {next : Option (T → T → T)} {x y : Bound T}
    (hx : BoundInv x) (hy : BoundInv y) (hv : x.Lo.Value = y.Lo.Value)
    (hle : startKey x.Lo ≤ startKey y.Lo) : TouchP next x y := by
  have hvx : x.Lo.Value ≤ x.Hi.Value := boundInv_values hx
  rcases lt_or_eq_of_le hvx with hlt | heqp
  · left
    refine ⟨?_, le_trans hle (boundInv_iff.mp hy)⟩
    exact le_of_lt (key_lt_fst (by rw [startKey_fst, endKey_fst]; exact hv ▸ hlt))
  · have hpt := boundInv_point hx heqp
    by_cases hyI : y.Lo.Included = true
    · left
      refine ⟨?_, le_trans hle (boundInv_iff.mp hy)⟩
      refine key_le_fst_snd ?_ ?_
      · rw [startKey_fst, endKey_fst]; exact hv.symm.trans heqp
      · rw [startKey_snd, endKey_snd]; simp [sN, eN, hyI, hpt.2]
    · right; left
      exact ⟨le_of_eq (heqp.symm.trans hv),
        isEdgeNear_iff.mpr (Or.inl ⟨heqp.symm.trans hv, Or.inl hpt.2⟩)⟩

theorem not_touch_lo_ne {next : Option (T → T → T)} {x y : Bound T}
    (hx : BoundInv x) (hy : BoundInv y) (ht : ¬TouchP next x y) :
    x.Lo.Value ≠ y.Lo.Value := by
  intro hv
  rcases le_total (startKey x.Lo) (startKey y.Lo) with h | h
  · exact ht (touch_of_eq_lo hx hy hv h)
  · exact ht (touchP_symm (touch_of_eq_lo hy hx hv.symm h))

theorem pairwise_lt_of_le_ne {l : List (Bound T)}
    (h1 : l.Pairwise fun x y => ¬(cmpOf y.Lo.Value x.Lo.Value = -1))
    (h2 : l.Pairwise fun x y => x.Lo.Value ≠ y.Lo.Value) :
    l.Pairwise fun x y => x.Lo.Value < y.Lo.Value := by
  refine (h1.and h2).imp ?_
  rintro a b ⟨ha, hb⟩
  rw [cmpOf_eq_negOne] at ha
  exact lt_of_le_of_ne (not_lt.mp ha) hb

/-- Two strictly sorted permutations of each other are equal. -/
theorem sorted_perm_eq {l1 l2 : List (Bound T)} (hp : List.Perm l1 l2)
    (hs1 : l1.Pairwise fun x y => x.Lo.Value < y.Lo.Value)
    (hs2 : l2.Pairwise fun x y => x.Lo.Value < y.Lo.Value) : l1 = l2 := by
  induction l1 generalizing l2 with
  | nil => exact (hp.nil_eq)
  | cons a t1 ih =>
    cases l2 with
    | nil => exact absurd hp.symm.nil_eq (by simp)
    | cons b t2 =>
      have hab : a = b := by
        by_contra hne
        have ha2 : a ∈ b :: t2 := hp.subset (by simp)
        have hb1 : b ∈ a :: t1 := hp.symm.subset (by simp)
        have ha2' : a ∈ t2 := by
          rcases List.mem_cons.mp ha2 with h | h
          · exact absurd h hne
          · exact h
        have hb1' : b ∈ t1 := by
          rcases List.mem_cons.mp hb1 with h | h
          · exact absurd h.symm hne
          · exact h
        have h1 : a.Lo.Value < b.Lo.Value :=
          (List.pairwise_cons.mp hs1).1 b hb1'
        have h2 : b.Lo.Value < a.Lo.Value :=
          (List.pairwise_cons.mp hs2).1 a ha2'
        exact absurd h1 (asymm h2)
      subst hab
      have hpt : List.Perm t1 t2 := hp.cons_inv
      rw [ih hpt (List.pairwise_cons.mp hs1).2 (List.pairwise_cons.mp hs2).2]

/-! ### The span invariant -/

theorem spanInv_nil {next : Option (T → T → T)} : SpanInv next ([] : List (Bound T)) :=
  ⟨by simp, by simp, by simp⟩

theorem spanInv_single {next : Option (T → T → T)} {b : Bound T}
    (hb : BoundInv b) : SpanInv next [b] :=
  ⟨by simpa, by simp, by simp⟩

/-- `span.UnionBound` preserves the span invariant. -/
theorem unionBound_inv {next : Option (T → T → T)} (hn : NextOk next)
    {s : List (Bound T)} {b : Bound T} (hs : SpanInv next s)
    (hb : BoundInv b) : SpanInv next (UnionBound next cmpOf s b) := by
  obtain ⟨hval, hsort, hpair⟩ := hs
  rw [unionBound_eq_fold]
  obtain ⟨h1, h2, h3, h4⟩ := ubfold_props hn s b hval hb hpair
  set p := s.foldl (ubStep next cmpOf) ([], b) with hp
  have hvalL : ∀ x ∈ p.1 ++ [p.2], BoundInv x := by
    intro x hx
    rcases List.mem_append.mp hx with hx | hx
    · exact hval x (h2.subset hx)
    · simp only [List.mem_singleton] at hx
      exact hx ▸ h1
  have hpairL : (p.1 ++ [p.2]).Pairwise fun x y => ¬TouchP next x y := by
    rw [List.pairwise_append]
    refine ⟨hpair.sublist h2, by simp, ?_⟩
    intro x hx y hy
    simp only [List.mem_singleton] at hy
    exact hy ▸ h3 x hx
  refine ⟨?_, ?_, ?_⟩
  · intro x hx
    exact hvalL x ((sortByLo_perm cmpOf _).subset hx)
  · refine (sortByLo_sorted (p.1 ++ [p.2])).imp ?_
    intro a b h
    rw [cmpOf_eq_negOne] at h
    exact not_lt.mp h
  · have hsym : Symmetric fun x y : Bound T => ¬TouchP next x y :=
      fun x y h ht => h (touchP_symm ht)
    exact ((sortByLo_perm cmpOf (p.1 ++ [p.2])).pairwise_iff fun hxy => hsym hxy).mpr hpairL

/-- `span.Union` preserves the span invariant. -/
theorem union_inv {next : Option (T → T → T)} (hn : NextOk next)
    {s ys : List (Bound T)} (hs : SpanInv next s)
    (hys : ∀ y ∈ ys, BoundInv y) : SpanInv next (Union next cmpOf s ys) := by
  unfold Union
  induction ys generalizing s with
  | nil => exact hs
  | cons y rest ih =>
    simp only [List.foldl_cons]
    exact ih (unionBound_inv hn hs (hys y (by simp)))
      fun x hx => hys x (by simp [hx])

/-! ### `Bound.Difference` -/

theorem key_lt_fst_snd {x y : T ×ₗ ℕ} (h1 : (ofLex x).1 = (ofLex y).1)
    (h2 : (ofLex x).2 < (ofLex y).2) : x < y :=
  (Prod.Lex.lt_iff (ofLex x) (ofLex y)).mpr (Or.inr ⟨h1, h2⟩)

theorem endKey_compl_lt (l : Edge T) :
    endKey (newEdge l.Value (!l.Included)) < startKey l := by
  refine (Prod.Lex.lt_iff _ _).mpr (Or.inr ⟨rfl, ?_⟩)
  cases hI : l.Included <;> simp [newEdge, endKey, startKey, hI]

theorem startKey_compl_gt (h : Edge T) :
    endKey h < startKey (newEdge h.Value (!h.Included)) := by
  refine (Prod.Lex.lt_iff _ _).mpr (Or.inr ⟨rfl, ?_⟩)
  cases hI : h.Included <;> simp [newEdge, endKey, startKey, hI]

/-- `Bound.Difference` in the overlap case emits exactly the two
complement-edged side pieces, each precisely when it is a valid
bound. -/
theorem difference_eq (a b : Bound T) :
    a.Difference cmpOf b =
      if b.Contains cmpOf a then []
      else if !(a.Overlaps cmpOf b) then [a]
      else
        (if BoundInv (⟨a.Lo, newEdge b.Lo.Value (!b.Lo.Included)⟩ : Bound T) then
          [(⟨a.Lo, newEdge b.Lo.Value (!b.Lo.Included)⟩ : Bound T)] else []) ++
        (if BoundInv (⟨newEdge b.Hi.Value (!b.Hi.Included), a.Hi⟩ : Bound T) then
          [(⟨newEdge b.Hi.Value (!b.Hi.Included), a.Hi⟩ : Bound T)] else []) := by
  unfold Bound.Difference
  by_cases h1 : b.Contains cmpOf a = true
  · rw [if_pos h1, if_pos h1]
  · rw [if_neg h1, if_neg h1]
    by_cases h2 : (!(a.Overlaps cmpOf b)) = true
    · rw [if_pos h2, if_pos h2]
    · rw [if_neg h2, if_neg h2]
      simp only []
      congr 1
      · -- the lower piece
        rcases lt_trichotomy b.Lo.Value a.Lo.Value with hv | hv | hv
        · rw [if_neg (by rw [cmpOf_eq_zero]; exact ne_of_lt hv),
            if_neg (by rw [gt_iff_lt, cmpOf_pos]; exact asymm hv), if_neg ?inv1]
          case inv1 =>
            rw [boundInv_iff, not_le]
            exact key_lt_fst (by rw [endKey_fst, startKey_fst]; exact hv)
        · rw [if_pos (cmpOf_eq_zero.mpr hv)]
          by_cases hincl : a.Lo.Included = true ∧ b.Lo.Included = false
          · rw [if_pos (by simp [hincl.1, hincl.2]), if_pos ?inv2]
            case inv2 =>
              rw [boundInv_iff]
              refine key_le_fst_snd ?_ ?_
              · rw [startKey_fst, endKey_fst]
                exact hv.symm
              · rw [startKey_snd, endKey_snd]
                simp [sN, eN, newEdge, hincl.1, hincl.2]
            have hA : newEdge a.Lo.Value true = a.Lo := by
              rw [newEdge, ← hincl.1]
            have hB2 : newEdge a.Lo.Value true = newEdge b.Lo.Value (!b.Lo.Included) := by
              rw [newEdge, newEdge, ← hv, hincl.2, Bool.not_false]
            have hpc : (⟨newEdge a.Lo.Value true, newEdge a.Lo.Value true⟩ : Bound T) =
                ⟨a.Lo, newEdge b.Lo.Value (!b.Lo.Included)⟩ := by
              simp only [Bound.mk.injEq]
              exact ⟨hA, hB2⟩
            rw [hpc]
          · rw [if_neg (by
              cases hA : a.Lo.Included <;> cases hB : b.Lo.Included <;> simp_all),
              if_neg ?inv3]
            case inv3 =>
              rw [boundInv_iff, not_le]
              show endKey (newEdge b.Lo.Value (!b.Lo.Included)) < startKey a.Lo
              refine key_lt_fst_snd ?_ ?_
              · rw [endKey_fst, startKey_fst]
                simpa [newEdge] using hv
              · rw [endKey_snd, startKey_snd]
                cases hA : a.Lo.Included <;> cases hB : b.Lo.Included <;>
                  simp_all [eN, sN, newEdge]
        · rw [if_neg (by rw [cmpOf_eq_zero]; exact ne_of_gt hv),
            if_pos (by rw [gt_iff_lt, cmpOf_pos]; exact hv), if_pos ?inv4]
          case inv4 =>
            rw [boundInv_iff]
            refine le_of_lt (key_lt_fst ?_)
            rw [startKey_fst, endKey_fst]
            simpa [newEdge] using hv
      · -- the upper piece
        rcases lt_trichotomy b.Hi.Value a.Hi.Value with hv | hv | hv
        · rw [if_neg (by rw [cmpOf_eq_zero]; exact ne_of_lt hv),
            if_pos (by rw [cmpOf_neg]; exact hv), if_pos ?inv5]
          case inv5 =>
            rw [boundInv_iff]
            refine le_of_lt (key_lt_fst ?_)
            rw [startKey_fst, endKey_fst]
            simpa [newEdge] using hv
        · rw [if_pos (cmpOf_eq_zero.mpr hv)]
          by_cases hincl : a.Hi.Included = true ∧ b.Hi.Included = false
          · rw [if_pos (by simp [hincl.1, hincl.2]), if_pos ?inv6]
            case inv6 =>
              rw [boundInv_iff]
              refine key_le_fst_snd ?_ ?_
              · rw [startKey_fst, endKey_fst]
                simpa [newEdge] using hv
              · rw [startKey_snd, endKey_snd]
                simp [sN, eN, newEdge, hincl.1, hincl.2]
            have hA : newEdge a.Hi.Value true = a.Hi := by
              rw [newEdge, ← hincl.1]
            have hB2 : newEdge a.Hi.Value true = newEdge b.Hi.Value (!b.Hi.Included) := by
              rw [newEdge, newEdge, ← hv, hincl.2, Bool.not_false]
            have hpc : (⟨newEdge a.Hi.Value true, newEdge a.Hi.Value true⟩ : Bound T) =
                ⟨newEdge b.Hi.Value (!b.Hi.Included), a.Hi⟩ := by
              simp only [Bound.mk.injEq]
              exact ⟨hB2, hA⟩
            rw [hpc]
          · rw [if_neg (by
              cases hA : a.Hi.Included <;> cases hB : b.Hi.Included <;> simp_all),
              if_neg ?inv7]
            case inv7 =>
              rw [boundInv_iff, not_le]
              show endKey a.Hi < startKey (newEdge b.Hi.Value (!b.Hi.Included))
              refine key_lt_fst_snd ?_ ?_
              · rw [endKey_fst, startKey_fst]
                simpa [newEdge] using hv.symm
              · rw [endKey_snd, startKey_snd]
                cases hA : a.Hi.Included <;> cases hB : b.Hi.Included <;>
                  simp_all [eN, sN, newEdge]
        · rw [if_neg (by rw [cmpOf_eq_zero]; exact ne_of_gt hv),
            if_neg (by rw [cmpOf_neg]; exact asymm hv), if_neg ?inv8]
          case inv8 =>
            rw [boundInv_iff, not_le]
            exact key_lt_fst (by rw [endKey_fst, startKey_fst]; simpa [newEdge] using hv)

/-- Membership in `Bound.Difference`: either the untouched input `a`,
or one of the two complement-edged pieces, which are only emitted
valid. -/
theorem mem_difference {a b p : Bound T} (hp : p ∈ a.Difference cmpOf b) :
    p = a ∨ (BoundInv p ∧
      (p = ⟨a.Lo, newEdge b.Lo.Value (!b.Lo.Included)⟩ ∨
        p = ⟨newEdge b.Hi.Value (!b.Hi.Included), a.Hi⟩)) := by
  rw [difference_eq] at hp
  by_cases h1 : b.Contains cmpOf a = true
  · rw [if_pos h1] at hp
    simp at hp
  · rw [if_neg h1] at hp
    by_cases h2 : (!(a.Overlaps cmpOf b)) = true
    · rw [if_pos h2] at hp
      simp only [List.mem_singleton] at hp
      exact Or.inl hp
    · rw [if_neg h2] at hp
      rcases List.mem_append.mp hp with h | h
      · by_cases h3 : BoundInv (⟨a.Lo, newEdge b.Lo.Value (!b.Lo.Included)⟩ : Bound T)
        · rw [if_pos h3] at h
          simp only [List.mem_singleton] at h
          exact Or.inr ⟨by rw [h]; exact h3, Or.inl h⟩
        · rw [if_neg h3] at h
          simp at h
      · by_cases h4 : BoundInv (⟨newEdge b.Hi.Value (!b.Hi.Included), a.Hi⟩ : Bound T)
        · rw [if_pos h4] at h
          simp only [List.mem_singleton] at h
          exact Or.inr ⟨by rw [h]; exact h4, Or.inr h⟩
        · rw [if_neg h4] at h
          simp at h

theorem diffPieces_inv {a b : Bound T} (ha : BoundInv a) :
    ∀ p ∈ a.Difference cmpOf b, BoundInv p := by
  intro p hp
  rcases mem_difference hp with rfl | ⟨hv, -⟩
  · exact ha
  · exact hv

/-- Every piece of `a.Difference b` stays inside `a` in edge-key
space (given that the bounds overlap, so each side piece is capped by
an edge of `b` lying inside `a`). -/
theorem diff_within {a b p : Bound T} (ha : BoundInv a)
    (hov : a.Overlaps cmpOf b = true) (hp : p ∈ a.Difference cmpOf b) :
    startKey a.Lo ≤ startKey p.Lo ∧ endKey p.Hi ≤ endKey a.Hi := by
  obtain ⟨ho1, ho2⟩ := overlaps_iff.mp hov
  rcases mem_difference hp with rfl | ⟨-, rfl | rfl⟩
  · exact ⟨le_refl _, le_refl _⟩
  · exact ⟨le_refl _, le_of_lt (lt_of_lt_of_le (endKey_compl_lt b.Lo) ho1)⟩
  · exact ⟨le_of_lt (lt_of_le_of_lt ho2 (startKey_compl_gt b.Hi)), le_refl _⟩

/-- The (at most two) pieces of `a.Difference b` are emitted in order
and separated by the removed bound `b`. -/
theorem diff_pairwise {a b : Bound T} (hb : BoundInv b) :
    (a.Difference cmpOf b).Pairwise fun x y => endKey x.Hi < startKey y.Lo := by
  have hsep : endKey (newEdge b.Lo.Value (!b.Lo.Included)) <
      startKey (newEdge b.Hi.Value (!b.Hi.Included)) :=
    calc endKey (newEdge b.Lo.Value (!b.Lo.Included))
        < startKey b.Lo := endKey_compl_lt b.Lo
      _ ≤ endKey b.Hi := boundInv_iff.mp hb
      _ < startKey (newEdge b.Hi.Value (!b.Hi.Included)) := startKey_compl_gt b.Hi
  rw [difference_eq]
  split_ifs <;> simp_all

/-! ### The `span.DifferenceBound` fold -/

theorem dbfold_eq (cmp : T → T → Int) (y : Bound T) (s : List (Bound T))
    (nb : List (Bound T)) :
    s.foldl
      (fun newBounds existingBound =>
        if y.Contains cmp existingBound then newBounds
        else if existingBound.Overlaps cmp y then
          newBounds ++ existingBound.Difference cmp y
        else newBounds ++ [existingBound]) nb =
      nb ++ s.flatMap (dbPiece cmp y) := by
  induction s generalizing nb with
  | nil => simp
  | cons e rest ih =>
    simp only [List.foldl_cons, List.flatMap_cons]
    have hstep : (if y.Contains cmp e then nb
        else if e.Overlaps cmp y then nb ++ e.Difference cmp y
        else nb ++ [e]) = nb ++ dbPiece cmp y e := by
      unfold dbPiece
      split_ifs <;> simp
    rw [hstep, ih, List.append_assoc]

theorem differenceBound_eq (cmp : T → T → Int) (s : List (Bound T))
    (y : Bound T) :
    DifferenceBound cmp s y = s.flatMap (dbPiece cmp y) := by
  unfold DifferenceBound
  rw [dbfold_eq]
  simp

theorem dbPiece_inv {y e : Bound T} (he : BoundInv e) :
    ∀ p ∈ dbPiece cmpOf y e, BoundInv p := by
  unfold dbPiece
  split_ifs with h1 h2
  · simp
  · exact diffPieces_inv he
  · intro p hp
    simp only [List.mem_singleton] at hp
    exact hp ▸ he

theorem dbPiece_within {y e p : Bound T} (he : BoundInv e)
    (hp : p ∈ dbPiece cmpOf y e) :
    startKey e.Lo ≤ startKey p.Lo ∧ endKey p.Hi ≤ endKey e.Hi := by
  unfold dbPiece at hp
  split_ifs at hp with h1 h2
  · simp at hp
  · exact diff_within he h2 hp
  · simp only [List.mem_singleton] at hp
    exact hp ▸ ⟨le_refl _, le_refl _⟩

theorem dbPiece_pairwise {y e : Bound T} (hy : BoundInv y) :
    (dbPiece cmpOf y e).Pairwise fun x z => endKey x.Hi < startKey z.Lo := by
  unfold dbPiece
  split_ifs with h1 h2
  · exact List.Pairwise.nil
  · exact diff_pairwise hy
  · simp

/-! ### Separated spans -/

/-- Non-touching valid bounds listed in lower-value order are strictly
separated. -/
theorem sep_of_not_touch {next : Option (T → T → T)} {x y : Bound T}
    (hx : BoundInv x) (hy : BoundInv y) (hlo : x.Lo.Value ≤ y.Lo.Value)
    (ht : ¬TouchP next x y) : endKey x.Hi < startKey y.Lo := by
  have hnov : ¬OverlapP x y := fun h => ht (Or.inl h)
  unfold OverlapP at hnov
  rw [not_and_or, not_le, not_le] at hnov
  rcases hnov with h | h
  · exact h
  · exfalso
    have h1 : startKey y.Lo < startKey x.Lo :=
      lt_of_le_of_lt (boundInv_iff.mp hy) h
    have hvle : y.Lo.Value ≤ x.Lo.Value := by
      have hk := key_value_le (le_of_lt h1)
      rwa [startKey_fst, startKey_fst] at hk
    have hveq : x.Lo.Value = y.Lo.Value := le_antisymm hlo hvle
    rcases key_cases_lt h1 with hlt | ⟨-, hsn⟩
    · rw [startKey_fst, startKey_fst] at hlt
      exact absurd hveq (ne_of_gt hlt)
    · rw [startKey_snd, startKey_snd] at hsn
      cases hyI : y.Lo.Included <;> cases hxI : x.Lo.Included <;>
        simp [sN, hyI, hxI] at hsn
      -- surviving case: `y.Lo` included, `x.Lo` excluded, so `y`
      -- degenerates to a point gluable onto `x.Lo`.
      have hyhv : y.Hi.Value ≤ x.Lo.Value := by
        have hk := key_value_le (le_of_lt h)
        rwa [endKey_fst, startKey_fst] at hk
      have hyhe : y.Hi.Value = x.Lo.Value :=
        le_antisymm hyhv (hveq ▸ boundInv_values hy)
      have hpt : y.Lo.Value = y.Hi.Value := hveq.symm.trans hyhe.symm
      have hinc := boundInv_point hy hpt
      exact ht (Or.inr (Or.inr ⟨le_of_eq hyhe,
        isEdgeNear_iff.mpr (Or.inl ⟨hyhe, Or.inl hinc.2⟩)⟩))

/-- The full span invariant implies strict separation. -/
theorem spanSep_of_inv {next : Option (T → T → T)} {l : List (Bound T)}
    (h : SpanInv next l) : SpanSep l := by
  obtain ⟨hval, hsort, hpair⟩ := h
  refine ⟨hval, (hsort.and hpair).imp_of_mem ?_⟩
  intro a b ha hb hab
  exact sep_of_not_touch (hval a ha) (hval b hb) hab.1 hab.2

theorem spanSep_sorted {l : List (Bound T)} (h : SpanSep l) :
    l.Pairwise fun x y => x.Lo.Value ≤ y.Lo.Value := by
  refine h.2.imp_of_mem ?_
  intro a b ha hb hab
  have hk : startKey a.Lo < startKey b.Lo :=
    lt_of_le_of_lt (boundInv_iff.mp (h.1 a ha)) hab
  have hv := key_value_le (le_of_lt hk)
  rwa [startKey_fst, startKey_fst] at hv

theorem spanSep_not_overlap {l : List (Bound T)} (h : SpanSep l) :
    l.Pairwise fun x y => ¬OverlapP x y :=
  h.2.imp fun hxy hov => absurd hov.1 (not_le.mpr hxy)

/-- `span.DifferenceBound` preserves strict separation. -/
theorem differenceBound_sep {y : Bound T} (hy : BoundInv y)
    {s : List (Bound T)} (hs : SpanSep s) :
    SpanSep (DifferenceBound cmpOf s y) := by
  obtain ⟨hval, hsep⟩ := hs
  rw [differenceBound_eq]
  constructor
  · intro p hp
    rcases List.mem_flatMap.mp hp with ⟨e, he, hpe⟩
    exact dbPiece_inv (hval e he) p hpe
  · rw [List.pairwise_flatMap]
    refine ⟨fun e _ => dbPiece_pairwise hy, hsep.imp_of_mem ?_⟩
    intro e1 e2 h1 h2 hee p1 hp1 p2 hp2
    calc endKey p1.Hi ≤ endKey e1.Hi := (dbPiece_within (hval e1 h1) hp1).2
      _ < startKey e2.Lo := hee
      _ ≤ startKey p2.Lo := (dbPiece_within (hval e2 h2) hp2).1

/-- `span.Difference` preserves strict separation. -/
theorem difference_sep {s ys : List (Bound T)} (hs : SpanSep s)
    (hys : ∀ y ∈ ys, BoundInv y) : SpanSep (Difference cmpOf s ys) := by
  unfold Difference
  induction ys generalizing s with
  | nil => exact hs
  | cons y rest ih =>
    simp only [List.foldl_cons]
    exact ih (differenceBound_sep (hys y (by simp)) hs)
      fun x hx => hys x (by simp [hx])

/-! ### Hull algebra -/

theorem startKey_minEdge (a b : Edge T) :
    startKey (minEdge a b cmpOf) = min (startKey a) (startKey b) := by
  rcases lt_trichotomy a.Value b.Value with h | h | h
  · rw [minEdge, if_neg (by rw [gt_iff_lt, cmpOf_pos]; exact asymm h),
      if_pos (cmpOf_neg.mpr h),
      min_eq_left (le_of_lt (key_lt_fst
        (by rw [startKey_fst, startKey_fst]; exact h)))]
  · rw [minEdge, if_neg (by rw [gt_iff_lt, cmpOf_pos]; exact not_lt.mpr (le_of_eq h)),
      if_neg (by rw [cmpOf_neg]; exact not_lt.mpr (le_of_eq h.symm))]
    cases hA : a.Included <;> cases hB : b.Included <;>
      simp [startKey, newEdge, min_def, key_le, h, hA, hB]
  · rw [minEdge, if_pos (by rw [gt_iff_lt, cmpOf_pos]; exact h),
      min_eq_right (le_of_lt (key_lt_fst
        (by rw [startKey_fst, startKey_fst]; exact h)))]

theorem endKey_maxEdge (a b : Edge T) :
    endKey (maxEdge a b cmpOf) = max (endKey a) (endKey b) := by
  rcases lt_trichotomy a.Value b.Value with h | h | h
  · rw [maxEdge, if_neg (by rw [gt_iff_lt, cmpOf_pos]; exact asymm h),
      if_pos (cmpOf_neg.mpr h),
      max_eq_right (le_of_lt (key_lt_fst
        (by rw [endKey_fst, endKey_fst]; exact h)))]
  · rw [maxEdge, if_neg (by rw [gt_iff_lt, cmpOf_pos]; exact not_lt.mpr (le_of_eq h)),
      if_neg (by rw [cmpOf_neg]; exact not_lt.mpr (le_of_eq h.symm))]
    cases hA : a.Included <;> cases hB : b.Included <;>
      simp [endKey, newEdge, max_def, key_le, h, hA, hB]
  · rw [maxEdge, if_pos (by rw [gt_iff_lt, cmpOf_pos]; exact h),
      max_eq_left (le_of_lt (key_lt_fst
        (by rw [endKey_fst, endKey_fst]; exact h)))]

theorem minEdge_assoc (a b c : Edge T) :
    minEdge (minEdge a b cmpOf) c cmpOf = minEdge a (minEdge b c cmpOf) cmpOf :=
  startKey_inj (by
    rw [startKey_minEdge, startKey_minEdge, startKey_minEdge, startKey_minEdge,
      min_assoc])

theorem maxEdge_assoc (a b c : Edge T) :
    maxEdge (maxEdge a b cmpOf) c cmpOf = maxEdge a (maxEdge b c cmpOf) cmpOf :=
  endKey_inj (by
    rw [endKey_maxEdge, endKey_maxEdge, endKey_maxEdge, endKey_maxEdge,
      max_assoc])

theorem hull_assoc (a b c : Bound T) :
    hull (hull a b) c = hull a (hull b c) := by
  show (⟨minEdge (minEdge a.Lo b.Lo cmpOf) c.Lo cmpOf,
      maxEdge (maxEdge a.Hi b.Hi cmpOf) c.Hi cmpOf⟩ : Bound T) =
    ⟨minEdge a.Lo (minEdge b.Lo c.Lo cmpOf) cmpOf,
      maxEdge a.Hi (maxEdge b.Hi c.Hi cmpOf) cmpOf⟩
  rw [minEdge_assoc, maxEdge_assoc]

/-- Touching the hull of a touching pair is exactly touching one of the
pair: the two directions `touch_hull_cover` and `touch_hull_mono`
combined. -/
theorem touch_hull_iff {next : Option (T → T → T)} (hn : NextOk next)
    {k c e : Bound T} (hk : BoundInv k) (hc : BoundInv c) (he : BoundInv e)
    (hce : TouchP next c e) :
    TouchP next k (hull c e) ↔ TouchP next k c ∨ TouchP next k e := by
  constructor
  · exact touch_hull_cover hn hk hc he hce
  · rintro (h | h)
    · exact touch_hull_mono hn hk hc he h
    · rw [hull_comm]
      exact touch_hull_mono hn hk he hc h

/-! ### `span.UnionBound` on one- and two-element spans -/

theorem ubfold_cons_touch {next : Option (T → T → T)} {x cand : Bound T}
    (hx : BoundInv x) (hc : BoundInv cand) (ht : TouchP next x cand)
    (rest : List (Bound T)) :
    (x :: rest).foldl (ubStep next cmpOf) ([], cand) =
      rest.foldl (ubStep next cmpOf) ([], hull x cand) := by
  simp only [List.foldl_cons, ubStep]
  rw [unionBounds_touch hx hc ht]
  rfl

theorem ubfold_cons_not {next : Option (T → T → T)} {x cand : Bound T}
    (hx : BoundInv x) (hc : BoundInv cand) (ht : ¬TouchP next x cand)
    (rest : List (Bound T)) :
    (x :: rest).foldl (ubStep next cmpOf) ([], cand) =
      ([x] ++ (rest.foldl (ubStep next cmpOf) ([], cand)).1,
        (rest.foldl (ubStep next cmpOf) ([], cand)).2) := by
  simp only [List.foldl_cons, ubStep]
  rw [unionBounds_not_touch hx hc ht, if_neg (by simp)]
  show rest.foldl (ubStep next cmpOf) ([x], cand) = _
  rw [ubfold_shift]

theorem unionBound_single_touch {next : Option (T → T → T)} {x b : Bound T}
    (hx : BoundInv x) (hb : BoundInv b) (ht : TouchP next x b) :
    UnionBound next cmpOf [x] b = [hull x b] := by
  rw [unionBound_eq_fold, ubfold_cons_touch hx hb ht]
  rfl

theorem unionBound_single_not {next : Option (T → T → T)} {x b : Bound T}
    (hx : BoundInv x) (hb : BoundInv b) (ht : ¬TouchP next x b) :
    UnionBound next cmpOf [x] b = sortByLo cmpOf [x, b] := by
  rw [unionBound_eq_fold, ubfold_cons_not hx hb ht]
  rfl

theorem unionBound_pair_tt {next : Option (T → T → T)} (hn : NextOk next)
    {x1 x2 c : Bound T} (h1 : BoundInv x1) (h2 : BoundInv x2)
    (hc : BoundInv c) (ht1 : TouchP next x1 c) (ht2 : TouchP next x2 c) :
    UnionBound next cmpOf [x1, x2] c = [hull (hull x1 x2) c] := by
  have ht2' : TouchP next x2 (hull x1 c) :=
    (touch_hull_iff hn h2 h1 hc ht1).mpr (Or.inr ht2)
  rw [unionBound_eq_fold, ubfold_cons_touch h1 hc ht1,
    ubfold_cons_touch h2 (hull_boundInv h1 hc) ht2']
  show [hull x2 (hull x1 c)] = [hull (hull x1 x2) c]
  rw [← hull_assoc, hull_comm (a := x2)]

theorem unionBound_pair_tf {next : Option (T → T → T)} (hn : NextOk next)
    {x1 x2 c : Bound T} (h1 : BoundInv x1) (h2 : BoundInv x2)
    (hc : BoundInv c) (ht1 : TouchP next x1 c) (ht2 : ¬TouchP next x2 c)
    (hx : ¬TouchP next x2 x1) :
    UnionBound next cmpOf [x1, x2] c = sortByLo cmpOf [x2, hull x1 c] := by
  have hnt : ¬TouchP next x2 (hull x1 c) := fun h =>
    ((touch_hull_iff hn h2 h1 hc ht1).mp h).elim hx ht2
  rw [unionBound_eq_fold, ubfold_cons_touch h1 hc ht1,
    ubfold_cons_not h2 (hull_boundInv h1 hc) hnt]
  rfl

theorem unionBound_pair_ft {next : Option (T → T → T)} {x1 x2 c : Bound T}
    (h1 : BoundInv x1) (h2 : BoundInv x2) (hc : BoundInv c)
    (ht1 : ¬TouchP next x1 c) (ht2 : TouchP next x2 c) :
    UnionBound next cmpOf [x1, x2] c = sortByLo cmpOf [x1, hull x2 c] := by
  rw [unionBound_eq_fold, ubfold_cons_not h1 hc ht1,
    ubfold_cons_touch h2 hc ht2]
  rfl

theorem unionBound_pair_ff {next : Option (T → T → T)} {x1 x2 c : Bound T}
    (h1 : BoundInv x1) (h2 : BoundInv x2) (hc : BoundInv c)
    (ht1 : ¬TouchP next x1 c) (ht2 : ¬TouchP next x2 c) :
    UnionBound next cmpOf [x1, x2] c = sortByLo cmpOf [x1, x2, c] := by
  rw [unionBound_eq_fold, ubfold_cons_not h1 hc ht1,
    ubfold_cons_not h2 hc ht2]
  rfl

/-! ### Sorting permutations with distinct lower values -/

theorem sortByLo_congr_perm {l1 l2 : List (Bound T)} (hp : List.Perm l1 l2)
    (hne : l1.Pairwise fun x y => x.Lo.Value ≠ y.Lo.Value) :
    sortByLo (cmpOf (T := T)) l1 = sortByLo cmpOf l2 := by
  have hsym : Symmetric fun x y : Bound T => x.Lo.Value ≠ y.Lo.Value :=
    fun x y h => h.symm
  have hperm : List.Perm (sortByLo (cmpOf (T := T)) l1) (sortByLo cmpOf l2) :=
    ((sortByLo_perm _ l1).trans hp).trans (sortByLo_perm _ l2).symm
  have hne1 : (sortByLo (cmpOf (T := T)) l1).Pairwise
      fun x y => x.Lo.Value ≠ y.Lo.Value :=
    ((sortByLo_perm cmpOf l1).pairwise_iff fun hxy => hsym hxy).mpr hne
  have hne2 : (sortByLo (cmpOf (T := T)) l2).Pairwise
      fun x y => x.Lo.Value ≠ y.Lo.Value :=
    ((sortByLo_perm cmpOf l2).pairwise_iff fun hxy => hsym hxy).mpr
      ((hp.pairwise_iff fun hxy => hsym hxy).mp hne)
  exact sorted_perm_eq hperm
    (pairwise_lt_of_le_ne (sortByLo_sorted l1) hne1)
    (pairwise_lt_of_le_ne (sortByLo_sorted l2) hne2)

theorem sortByLo_pair_eq {x y : Bound T} (h : x.Lo.Value ≠ y.Lo.Value) :
    sortByLo (cmpOf (T := T)) [x, y] = sortByLo cmpOf [y, x] :=
  sortByLo_congr_perm (List.Perm.swap y x [])
    (by
      refine List.Pairwise.cons ?_ (List.pairwise_singleton _ _)
      intro z hz
      simp only [List.mem_singleton] at hz
      subst hz
      exact h)

theorem sortByLo_pair_cases (cmp : T → T → Int) (x y : Bound T) :
    sortByLo cmp [x, y] = [x, y] ∨ sortByLo cmp [x, y] = [y, x] := by
  unfold sortByLo
  simp only [List.insertionSort, List.orderedInsert]
  split_ifs with h
  · exact Or.inr rfl
  · exact Or.inl rfl

theorem unionBound_pair_comm {next : Option (T → T → T)} (hn : NextOk next)
    {x1 x2 c : Bound T} (h1 : BoundInv x1) (h2 : BoundInv x2)
    (hc : BoundInv c) (hx : ¬TouchP next x1 x2) :
    UnionBound next cmpOf [x1, x2] c = UnionBound next cmpOf [x2, x1] c := by
  have hx' : ¬TouchP next x2 x1 := fun h => hx (touchP_symm h)
  by_cases ht1 : TouchP next x1 c <;> by_cases ht2 : TouchP next x2 c
  · rw [unionBound_pair_tt hn h1 h2 hc ht1 ht2,
      unionBound_pair_tt hn h2 h1 hc ht2 ht1, hull_comm (a := x1)]
  · rw [unionBound_pair_tf hn h1 h2 hc ht1 ht2 hx',
      unionBound_pair_ft h2 h1 hc ht2 ht1]
  · rw [unionBound_pair_ft h1 h2 hc ht1 ht2,
      unionBound_pair_tf hn h2 h1 hc ht2 ht1 hx]
  · rw [unionBound_pair_ff h1 h2 hc ht1 ht2,
      unionBound_pair_ff h2 h1 hc ht2 ht1]
    refine sortByLo_congr_perm (List.Perm.swap x2 x1 [c]) ?_
    refine List.Pairwise.cons ?_ (List.Pairwise.cons ?_
      (List.pairwise_singleton _ _))
    · intro z hz
      rcases List.mem_cons.mp hz with rfl | hz
      · exact not_touch_lo_ne h1 h2 hx
      · simp only [List.mem_singleton] at hz
        subst hz
        exact not_touch_lo_ne h1 hc ht1
    · intro z hz
      simp only [List.mem_singleton] at hz
      subst hz
      exact not_touch_lo_ne h2 hc ht2

theorem unionBound_sort_pair {next : Option (T → T → T)} (hn : NextOk next)
    {x1 x2 c : Bound T} (h1 : BoundInv x1) (h2 : BoundInv x2)
    (hc : BoundInv c) (hx : ¬TouchP next x1 x2) :
    UnionBound next cmpOf (sortByLo cmpOf [x1, x2]) c =
      UnionBound next cmpOf [x1, x2] c := by
  rcases sortByLo_pair_cases cmpOf x1 x2 with h | h <;> rw [h]
  exact unionBound_pair_comm hn h2 h1 hc fun h => hx (touchP_symm h)

/-! ### Commutativity and associativity of span union on single bounds -/

theorem union_comm_single {next : Option (T → T → T)} (hn : NextOk next)
    {a b : Bound T} (ha : BoundInv a) (hb : BoundInv b) :
    Union next cmpOf [a] [b] = Union next cmpOf [b] [a] := by
  show UnionBound next cmpOf [a] b = UnionBound next cmpOf [b] a
  by_cases ht : TouchP next a b
  · rw [unionBound_single_touch ha hb ht,
      unionBound_single_touch hb ha (touchP_symm ht), hull_comm]
  · rw [unionBound_single_not ha hb ht,
      unionBound_single_not hb ha fun h => ht (touchP_symm h)]
    exact sortByLo_pair_eq (not_touch_lo_ne ha hb ht)

/-- Folding two non-touching bounds into a single-bound span commutes:
the order in which `span.Union` visits them does not matter. -/
theorem unionBound_exchange {next : Option (T → T → T)} (hn : NextOk next)
    {a b c : Bound T} (ha : BoundInv a) (hb : BoundInv b) (hc : BoundInv c)
    (hbc : ¬TouchP next b c) :
    UnionBound next cmpOf (UnionBound next cmpOf [a] b) c =
      UnionBound next cmpOf (UnionBound next cmpOf [a] c) b := by
  have hcb : ¬TouchP next c b := fun h => hbc (touchP_symm h)
  by_cases hab : TouchP next a b <;> by_cases hac : TouchP next a c
  · have htc : TouchP next (hull a b) c :=
      touchP_symm ((touch_hull_iff hn hc ha hb hab).mpr
        (Or.inl (touchP_symm hac)))
    have htb : TouchP next (hull a c) b :=
      touchP_symm ((touch_hull_iff hn hb ha hc hac).mpr
        (Or.inl (touchP_symm hab)))
    rw [unionBound_single_touch ha hb hab,
      unionBound_single_touch ha hc hac,
      unionBound_single_touch (hull_boundInv ha hb) hc htc,
      unionBound_single_touch (hull_boundInv ha hc) hb htb,
      hull_assoc, hull_assoc, hull_comm (a := b)]
  · have hnt : ¬TouchP next (hull a b) c := fun h =>
      ((touch_hull_iff hn hc ha hb hab).mp (touchP_symm h)).elim
        (fun x => hac (touchP_symm x)) fun x => hbc (touchP_symm x)
    rw [unionBound_single_touch ha hb hab,
      unionBound_single_not (hull_boundInv ha hb) hc hnt,
      unionBound_single_not ha hc hac,
      unionBound_sort_pair hn ha hc hb hac,
      unionBound_pair_tf hn ha hc hb hab hcb fun h => hac (touchP_symm h)]
    exact sortByLo_pair_eq (not_touch_lo_ne (hull_boundInv ha hb) hc hnt)
  · have hnt : ¬TouchP next (hull a c) b := fun h =>
      ((touch_hull_iff hn hb ha hc hac).mp (touchP_symm h)).elim
        (fun x => hab (touchP_symm x)) fun x => hcb (touchP_symm x)
    rw [unionBound_single_touch ha hc hac,
      unionBound_single_not (hull_boundInv ha hc) hb hnt,
      unionBound_single_not ha hb hab,
      unionBound_sort_pair hn ha hb hc hab,
      unionBound_pair_tf hn ha hb hc hac hbc fun h => hab (touchP_symm h)]
    exact (sortByLo_pair_eq (not_touch_lo_ne (hull_boundInv ha hc) hb hnt)).symm
  · rw [unionBound_single_not ha hb hab,
      unionBound_sort_pair hn ha hb hc hab,
      unionBound_pair_ff ha hb hc hac hbc,
      unionBound_single_not ha hc hac,
      unionBound_sort_pair hn ha hc hb hac,
      unionBound_pair_ff ha hc hb hab hcb]
    refine sortByLo_congr_perm (List.Perm.cons a (List.Perm.swap c b [])) ?_
    refine List.Pairwise.cons ?_ (List.Pairwise.cons ?_
      (List.pairwise_singleton _ _))
    · intro z hz
      rcases List.mem_cons.mp hz with rfl | hz
      · exact not_touch_lo_ne ha hb hab
      · simp only [List.mem_singleton] at hz
        subst hz
        exact not_touch_lo_ne ha hc hac
    · intro z hz
      simp only [List.mem_singleton] at hz
      subst hz
      exact not_touch_lo_ne hb hc hbc

theorem union_assoc_single {next : Option (T → T → T)} (hn : NextOk next)
    {a b c : Bound T} (ha : BoundInv a) (hb : BoundInv b) (hc : BoundInv c) :
    Union next cmpOf (Union next cmpOf [a] [b]) [c] =
      Union next cmpOf [a] (Union next cmpOf [b] [c]) := by
  show UnionBound next cmpOf (UnionBound next cmpOf [a] b) c =
    Union next cmpOf [a] (UnionBound next cmpOf [b] c)
  by_cases hbc : TouchP next b c
  · rw [unionBound_single_touch hb hc hbc]
    show _ = UnionBound next cmpOf [a] (hull b c)
    by_cases hab : TouchP next a b
    · have htc : TouchP next (hull a b) c :=
        touchP_symm ((touch_hull_iff hn hc ha hb hab).mpr
          (Or.inr (touchP_symm hbc)))
      have htar : TouchP next a (hull b c) :=
        (touch_hull_iff hn ha hb hc hbc).mpr (Or.inl hab)
      rw [unionBound_single_touch ha hb hab,
        unionBound_single_touch (hull_boundInv ha hb) hc htc,
        unionBound_single_touch ha (hull_boundInv hb hc) htar, hull_assoc]
    · by_cases hac : TouchP next a c
      · have htar : TouchP next a (hull b c) :=
          (touch_hull_iff hn ha hb hc hbc).mpr (Or.inr hac)
        rw [unionBound_single_not ha hb hab,
          unionBound_sort_pair hn ha hb hc hab,
          unionBound_pair_tt hn ha hb hc hac hbc,
          unionBound_single_touch ha (hull_boundInv hb hc) htar, hull_assoc]
      · have hnar : ¬TouchP next a (hull b c) := fun h =>
          ((touch_hull_iff hn ha hb hc hbc).mp h).elim hab hac
        rw [unionBound_single_not ha hb hab,
          unionBound_sort_pair hn ha hb hc hab,
          unionBound_pair_ft ha hb hc hac hbc,
          unionBound_single_not ha (hull_boundInv hb hc) hnar]
  · rw [unionBound_single_not hb hc hbc]
    rcases sortByLo_pair_cases (cmpOf (T := T)) b c with hs | hs <;> rw [hs]
    · rfl
    · exact unionBound_exchange hn ha hb hc hbc

/-! ### Soundness of the integer successor -/

theorem nextInt_ok : NextOk (some nextIntFn) := by
  intro f hf v t hvt hle x hvx
  injection hf with hf
  subst hf
  unfold nextIntFn at hle
  rw [if_neg (ne_of_lt hvt), if_pos hvt] at hle
  omega

/-! ### Containment short-circuits the hull -/

theorem hull_eq_left {a b : Bound T} (h : a.Contains cmpOf b = true) :
    hull a b = a := by
  obtain ⟨h1, h2⟩ := contains_iff.mp h
  show (⟨minEdge a.Lo b.Lo cmpOf, maxEdge a.Hi b.Hi cmpOf⟩ : Bound T) = a
  rw [minEdge_eq_left h1, maxEdge_eq_left h2]

theorem hull_eq_right {a b : Bound T} (h : b.Contains cmpOf a = true) :
    hull a b = b := by
  obtain ⟨h1, h2⟩ := contains_iff.mp h
  show (⟨minEdge a.Lo b.Lo cmpOf, maxEdge a.Hi b.Hi cmpOf⟩ : Bound T) = b
  rw [minEdge_eq_right h1, maxEdge_eq_right h2]

theorem unionBounds_fst_inv {next : Option (T → T → T)} {a b : Bound T}
    (ha : BoundInv a) (hb : BoundInv b) :
    BoundInv (UnionBounds next cmpOf a b).1 := by
  by_cases ht : TouchP next a b
  · rw [unionBounds_touch ha hb ht]
    exact hull_boundInv ha hb
  · rw [unionBounds_not_touch ha hb ht]
    exact ha

/-! ### Parsing lemmas -/

theorem findIdx_colon_aux (v1 : List Char) (h1 : ':' ∉ v1) (rest : List Char)
    (i : ℕ) :
    List.findIdx? (fun c => decide (c = ':')) (v1 ++ ':' :: rest) i =
      some (v1.length + i) := by
  induction v1 generalizing i with
  | nil => simp [List.findIdx?_cons]
  | cons c tl ih =>
    have hc : ¬c = ':' := fun h => h1 (h ▸ List.mem_cons_self c tl)
    rw [List.cons_append, List.findIdx?_cons, if_neg (by simp [hc])]
    rw [ih (fun h => h1 (List.mem_cons_of_mem c h)) (i + 1)]
    congr 1
    simp only [List.length_cons]
    omega

/-- `ParseBound` on a structurally well-formed input: brackets at both
ends, a first `':'` splitting two value substrings.  The result is
exactly what the value parser makes of the two substrings, the bracket
characters decoding the inclusion flags. -/
theorem parseBound_wf {ε : Type} (parser : List Char → Except ε T)
    (cl cr : Char) (hcl : cl = '[' ∨ cl = '(') (hcr : cr = ']' ∨ cr = ')')
    (v1 v2 : List Char) (h1 : ':' ∉ v1)
    (hlen : 2 ≤ v1.length + v2.length) :
    ParseBound (cl :: (v1 ++ ':' :: v2 ++ [cr])) parser =
      (match parser v1 with
      | .error e => .error (.parserErr e)
      | .ok lo =>
        match parser v2 with
        | .error e => .error (.parserErr e)
        | .ok hi => .ok ⟨⟨lo, decide (cl = '[')⟩, ⟨hi, decide (cr = ']')⟩⟩) := by
  have hnl : ¬(cl :: (v1 ++ ':' :: v2 ++ [cr])).length < 5 := by
    simp [List.length_append]
    omega
  have h0 : ¬cl = ':' := by rcases hcl with rfl | rfl <;> decide
  have hfi : List.findIdx? (fun c => decide (c = ':'))
      (cl :: (v1 ++ ':' :: v2 ++ [cr])) = some (v1.length + 1) := by
    have hne : ':' ∉ cl :: v1 := by
      intro h
      rcases List.mem_cons.mp h with h | h
      · exact h0 h.symm
      · exact h1 h
    have hx := findIdx_colon_aux (cl :: v1) hne (v2 ++ [cr]) 0
    simpa [Nat.add_comm] using hx
  have hlast : (cl :: (v1 ++ ':' :: v2 ++ [cr])).getLast? = some cr := by
    rw [show cl :: (v1 ++ ':' :: v2 ++ [cr]) = (cl :: (v1 ++ ':' :: v2)) ++ [cr]
      from by simp]
    exact List.getLast?_concat _
  have hdrop1 : (cl :: (v1 ++ ':' :: v2 ++ [cr])).drop 1 =
      v1 ++ ':' :: v2 ++ [cr] := rfl
  have htake1 : (v1 ++ ':' :: v2 ++ [cr]).take (v1.length + 1 - 1) = v1 := by
    rw [show v1.length + 1 - 1 = v1.length from by omega]
    rw [show v1 ++ ':' :: v2 ++ [cr] = v1 ++ (':' :: v2 ++ [cr]) from by simp]
    exact List.take_left _ _
  have hdrop2 : (cl :: (v1 ++ ':' :: v2 ++ [cr])).drop (v1.length + 1 + 1) =
      v2 ++ [cr] := by
    rw [show cl :: (v1 ++ ':' :: v2 ++ [cr]) =
      (cl :: (v1 ++ [':'])) ++ (v2 ++ [cr]) from by simp]
    exact List.drop_left' (by simp)
  have htake2 : (v2 ++ [cr]).take
      ((cl :: (v1 ++ ':' :: v2 ++ [cr])).length - 1 - (v1.length + 1 + 1)) =
      v2 := by
    apply List.take_left'
    simp [List.length_append]
    omega
  have cne1 : ¬(('(' : Char) = '[') := by decide
  have cne2 : ¬((')' : Char) = ']') := by decide
  have cde1 : decide (('(' : Char) = '[') = false := by decide
  have cde2 : decide ((')' : Char) = ']') = false := by decide
  rcases hcl with rfl | rfl <;> rcases hcr with rfl | rfl <;>
    · unfold ParseBound
      rw [if_neg hnl]
      simp only [List.head?_cons, hlast, hfi, hdrop1, htake1, hdrop2, htake2,
        ite_true, ite_false, if_neg cne1, if_neg cne2]
      rcases hp1 : parser v1 with e | lo <;>
        rcases hp2 : parser v2 with e2 | hi <;>
          simp only [hp1, hp2, decide_True, decide_False, ite_true, ite_false,
            if_neg cne1, if_neg cne2, cde1, cde2]

/-- `digitParser1` accepts exactly the canonical output of
`digitFormat`. -/
theorem digit_inverse : ∀ cs v, digitParser1 cs = .ok v →
    digitFormat v = cs := by
  intro cs v h
  rcases cs with _ | ⟨c, _ | ⟨d, tl⟩⟩ <;> simp only [digitParser1] at h
  · exact absurd h (by simp)
  · split_ifs at h with hd
    injection h with h
    subst h
    unfold digitFormat
    congr 1
    have h48 : ((c.toNat : Int) - 48).toNat = c.toNat - 48 := by omega
    rw [h48, show c.toNat - 48 + 48 = c.toNat from by omega, Char.ofNat_toNat]
  · exact absurd h (by simp)

/-! ## The claims -/

/-- Claim C1 (corrected): after `span.UnionBound` and `span.Union` the
result satisfies the full span invariant — every bound valid, sorted
ascending by lower edge value, pairwise non-overlapping and no pair
reporting a merge when retested with the two-bound union.  After
`span.DifferenceBound` and `span.Difference` the result is valid,
sorted and pairwise non-overlapping, but adjacent bounds CAN be left
coalescible under the successor (see the counterexample), so the
original claim's non-coalescibility clause holds only for the union
operations. -/
theorem claim_C1 {next : Option (T → T → T)} (hn : NextOk next)
    (s ys : List (Bound T)) (b y : Bound T) (hs : SpanInv next s)
    (hb : BoundInv b) (hy : BoundInv y) (hys : ∀ x ∈ ys, BoundInv x) :
    (SpanInv next (UnionBound next cmpOf s b) ∧
      (UnionBound next cmpOf s b).Pairwise
        fun x z => (UnionBounds next cmpOf x z).2 = false) ∧
    (SpanInv next (Union next cmpOf s ys) ∧
      (Union next cmpOf s ys).Pairwise
        fun x z => (UnionBounds next cmpOf x z).2 = false) ∧
    ((∀ x ∈ DifferenceBound cmpOf s y, BoundInv x) ∧
      (DifferenceBound cmpOf s y).Pairwise
        (fun x z => x.Lo.Value ≤ z.Lo.Value) ∧
      (DifferenceBound cmpOf s y).Pairwise fun x z => ¬OverlapP x z) ∧
    ((∀ x ∈ Difference cmpOf s ys, BoundInv x) ∧
      (Difference cmpOf s ys).Pairwise
        (fun x z => x.Lo.Value ≤ z.Lo.Value) ∧
      (Difference cmpOf s ys).Pairwise fun x z => ¬OverlapP x z) := by
  have h1 := unionBound_inv hn hs hb
  have h2 := union_inv hn hs hys
  have h3 := differenceBound_sep hy (spanSep_of_inv hs)
  have h4 := difference_sep (spanSep_of_inv hs) hys
  refine ⟨⟨h1, ?_⟩, ⟨h2, ?_⟩,
    ⟨h3.1, spanSep_sorted h3, spanSep_not_overlap h3⟩,
    ⟨h4.1, spanSep_sorted h4, spanSep_not_overlap h4⟩⟩
  · refine h1.2.2.imp_of_mem ?_
    intro a c ha hc hnt
    rw [unionBounds_not_touch (h1.1 a ha) (h1.1 c hc) hnt]
  · refine h2.2.2.imp_of_mem ?_
    intro a c ha hc hnt
    rw [unionBounds_not_touch (h2.1 a ha) (h2.1 c hc) hnt]

theorem claim_C1_witness :
    SpanInv (some nextIntFn)
      (UnionBound (some nextIntFn) cmpOf [(⟨⟨1, true⟩, ⟨2, true⟩⟩ : Bound ℤ)]
        ⟨⟨4, true⟩, ⟨5, true⟩⟩) :=
  (claim_C1 nextInt_ok [⟨⟨1, true⟩, ⟨2, true⟩⟩] [⟨⟨7, true⟩, ⟨8, true⟩⟩]
    ⟨⟨4, true⟩, ⟨5, true⟩⟩ ⟨⟨1, false⟩, ⟨2, false⟩⟩
    (spanInv_single (by decide)) (by decide) (by decide) (by decide)).1.1

/-- Claim C1 counterexample: over the integers with successor,
`DifferenceBound` splits `[1:5] − (2:3)` into `[1:2]` and `[3:5]`,
which the two-bound union immediately reports as mergeable (`3` is the
successor of `2`), so the difference operations do not restore the
maximally-merged form. -/
theorem claim_C1_counterexample :
    SpanInv (some nextIntFn) [(⟨⟨1, true⟩, ⟨5, true⟩⟩ : Bound ℤ)] ∧
    BoundInv (⟨⟨2, false⟩, ⟨3, false⟩⟩ : Bound ℤ) ∧
    DifferenceBound cmpOf [(⟨⟨1, true⟩, ⟨5, true⟩⟩ : Bound ℤ)]
        ⟨⟨2, false⟩, ⟨3, false⟩⟩ =
      [⟨⟨1, true⟩, ⟨2, true⟩⟩, ⟨⟨3, true⟩, ⟨5, true⟩⟩] ∧
    (UnionBounds (some nextIntFn) cmpOf (⟨⟨1, true⟩, ⟨2, true⟩⟩ : Bound ℤ)
        ⟨⟨3, true⟩, ⟨5, true⟩⟩).2 = true :=
  ⟨spanInv_single (by decide), by decide, by decide, by decide⟩

/-- Claim C2: for valid bounds wrapped as single-bound spans over one
comparator and a sound successor, span union is commutative and
associative with bound lists compared edge by edge. -/
theorem claim_C2 {next : Option (T → T → T)} (hn : NextOk next)
    (a b c : Bound T) (ha : BoundInv a) (hb : BoundInv b)
    (hc : BoundInv c) :
    Union next cmpOf [a] [b] = Union next cmpOf [b] [a] ∧
    Union next cmpOf (Union next cmpOf [a] [b]) [c] =
      Union next cmpOf [a] (Union next cmpOf [b] [c]) :=
  ⟨union_comm_single hn ha hb, union_assoc_single hn ha hb hc⟩

theorem claim_C2_witness :
    Union (some nextIntFn) cmpOf [(⟨⟨1, true⟩, ⟨2, true⟩⟩ : Bound ℤ)]
        [⟨⟨4, true⟩, ⟨5, true⟩⟩] =
      Union (some nextIntFn) cmpOf [(⟨⟨4, true⟩, ⟨5, true⟩⟩ : Bound ℤ)]
        [⟨⟨1, true⟩, ⟨2, true⟩⟩] ∧
    Union (some nextIntFn) cmpOf
        (Union (some nextIntFn) cmpOf [(⟨⟨1, true⟩, ⟨2, true⟩⟩ : Bound ℤ)]
          [⟨⟨4, true⟩, ⟨5, true⟩⟩]) [⟨⟨7, true⟩, ⟨8, true⟩⟩] =
      Union (some nextIntFn) cmpOf [(⟨⟨1, true⟩, ⟨2, true⟩⟩ : Bound ℤ)]
        (Union (some nextIntFn) cmpOf [⟨⟨4, true⟩, ⟨5, true⟩⟩]
          [⟨⟨7, true⟩, ⟨8, true⟩⟩]) :=
  claim_C2 nextInt_ok ⟨⟨1, true⟩, ⟨2, true⟩⟩ ⟨⟨4, true⟩, ⟨5, true⟩⟩
    ⟨⟨7, true⟩, ⟨8, true⟩⟩ (by decide) (by decide) (by decide)

/-- Claim C3: over the integers with successor `n → n+1` the union of
`Span{[1:2]}` with `[3:4]` coalesces to the single bound `[1:4]`;
over the rationals (modelling the floats of the spec's example) with
any successor that from `2` towards `3` stays strictly below `3`, the
same union keeps the two bounds `[1:2]`, `[3:4]` separate. -/
theorem claim_C3 (f : ℚ → ℚ → ℚ) (hf : f 2 3 < 3) :
    Union (some nextIntFn) cmpOf [(⟨⟨1, true⟩, ⟨2, true⟩⟩ : Bound ℤ)]
        [⟨⟨3, true⟩, ⟨4, true⟩⟩] = [⟨⟨1, true⟩, ⟨4, true⟩⟩] ∧
    Union (some f) cmpOf [(⟨⟨1, true⟩, ⟨2, true⟩⟩ : Bound ℚ)]
        [⟨⟨3, true⟩, ⟨4, true⟩⟩] =
      [⟨⟨1, true⟩, ⟨2, true⟩⟩, ⟨⟨3, true⟩, ⟨4, true⟩⟩] := by
  constructor
  · decide
  · show UnionBound (some f) cmpOf [(⟨⟨1, true⟩, ⟨2, true⟩⟩ : Bound ℚ)]
      ⟨⟨3, true⟩, ⟨4, true⟩⟩ = _
    have hnt : ¬TouchP (some f) (⟨⟨1, true⟩, ⟨2, true⟩⟩ : Bound ℚ)
        ⟨⟨3, true⟩, ⟨4, true⟩⟩ := by
      rintro (hov | ⟨hle, hnear⟩ | ⟨hle, -⟩)
      · have hx := value_le_of_key_le hov.1
        norm_num at hx
      · rcases isEdgeNear_iff.mp hnear with ⟨hv, -⟩ | ⟨g, hg, -, -, hadv⟩
        · norm_num at hv
        · injection hg with hg
          subst hg
          exact absurd hadv (not_le.mpr hf)
      · norm_num at hle
    rw [unionBound_single_not (by decide) (by decide) hnt]
    decide

theorem claim_C3_witness :
    Union (some nextIntFn) cmpOf [(⟨⟨1, true⟩, ⟨2, true⟩⟩ : Bound ℤ)]
        [⟨⟨3, true⟩, ⟨4, true⟩⟩] = [⟨⟨1, true⟩, ⟨4, true⟩⟩] ∧
    Union (some fun v _ => v) cmpOf [(⟨⟨1, true⟩, ⟨2, true⟩⟩ : Bound ℚ)]
        [⟨⟨3, true⟩, ⟨4, true⟩⟩] =
      [⟨⟨1, true⟩, ⟨2, true⟩⟩, ⟨⟨3, true⟩, ⟨4, true⟩⟩] :=
  claim_C3 (fun v _ => v) (by norm_num)

/-- Claim C4: `a.Difference b` returns `[]` when `b` contains `a`,
`[a]` when the two do not overlap, and otherwise one complement-edged
piece per side of `b` inside `a`, each emitted independently and
exactly when it is a non-empty (valid) bound; and concretely
`Difference([1:3], (1:2)) = [[1:1], [2:3]]` over the integers. -/
theorem claim_C4 (a b : Bound T) :
    (a.Difference cmpOf b =
      if b.Contains cmpOf a then []
      else if !(a.Overlaps cmpOf b) then [a]
      else
        (if BoundInv (⟨a.Lo, newEdge b.Lo.Value (!b.Lo.Included)⟩ : Bound T)
          then [(⟨a.Lo, newEdge b.Lo.Value (!b.Lo.Included)⟩ : Bound T)]
          else []) ++
        (if BoundInv (⟨newEdge b.Hi.Value (!b.Hi.Included), a.Hi⟩ : Bound T)
          then [(⟨newEdge b.Hi.Value (!b.Hi.Included), a.Hi⟩ : Bound T)]
          else [])) ∧
    Bound.Difference (⟨⟨(1 : ℤ), true⟩, ⟨3, true⟩⟩ : Bound ℤ) cmpOf
        ⟨⟨1, false⟩, ⟨2, false⟩⟩ =
      [⟨⟨1, true⟩, ⟨1, true⟩⟩, ⟨⟨2, true⟩, ⟨3, true⟩⟩] :=
  ⟨difference_eq a b, by decide⟩

/-- Claim C5 (corrected): for valid bounds, the two-bound union reports
a merge exactly when the bounds overlap or are adjacent, returning the
min/max edge hull (which is the containing bound under containment);
when no merge is possible it returns the FIRST argument with `false` —
not the smaller bound, as the counterexample with a strictly smaller
second argument shows. -/
theorem claim_C5 {next : Option (T → T → T)} (a b : Bound T)
    (ha : BoundInv a) (hb : BoundInv b) :
    ((UnionBounds next cmpOf a b).2 = true ↔ TouchP next a b) ∧
    (TouchP next a b → UnionBounds next cmpOf a b = (hull a b, true)) ∧
    (a.Contains cmpOf b = true → hull a b = a) ∧
    (b.Contains cmpOf a = true → hull a b = b) ∧
    (¬TouchP next a b → UnionBounds next cmpOf a b = (a, false)) :=
  ⟨unionBounds_snd_iff ha hb, unionBounds_touch ha hb,
    hull_eq_left, hull_eq_right, unionBounds_not_touch ha hb⟩

theorem claim_C5_witness :
    (UnionBounds (some nextIntFn) cmpOf (⟨⟨1, true⟩, ⟨3, true⟩⟩ : Bound ℤ)
        ⟨⟨2, true⟩, ⟨4, true⟩⟩).2 = true ↔
      TouchP (some nextIntFn) (⟨⟨1, true⟩, ⟨3, true⟩⟩ : Bound ℤ)
        ⟨⟨2, true⟩, ⟨4, true⟩⟩ :=
  (claim_C5 ⟨⟨1, true⟩, ⟨3, true⟩⟩ ⟨⟨2, true⟩, ⟨4, true⟩⟩
    (by decide) (by decide)).1

/-- Claim C5 counterexample: with `a = [5:6]` and `b = [1:2]` no merge
is possible and `UnionBounds` returns `([5:6], false)` — the first
argument — although `b` is the smaller bound (its edges lie strictly
below `a`). -/
theorem claim_C5_counterexample :
    UnionBounds (some nextIntFn) cmpOf (⟨⟨5, true⟩, ⟨6, true⟩⟩ : Bound ℤ)
        ⟨⟨1, true⟩, ⟨2, true⟩⟩ = (⟨⟨5, true⟩, ⟨6, true⟩⟩, false) ∧
    (⟨⟨1, true⟩, ⟨2, true⟩⟩ : Bound ℤ) ≠ ⟨⟨5, true⟩, ⟨6, true⟩⟩ ∧
    cmpOf ((⟨⟨1, true⟩, ⟨2, true⟩⟩ : Bound ℤ)).Hi.Value
      ((⟨⟨5, true⟩, ⟨6, true⟩⟩ : Bound ℤ)).Lo.Value = -1 := by
  decide

/-- Claim C6: on valid inputs every bound the Span/Bound algebra
constructs — the merged bound of `UnionBounds`, the pieces of
`Bound.Difference`, every member of a `UnionBound` or
`DifferenceBound` result — itself satisfies the construction
invariant, so the validation failure branches of `NewBoundEdgesFunc`
are unreachable from these operations and they are total. -/
theorem claim_C6 {next : Option (T → T → T)} (hn : NextOk next)
    (a b y : Bound T) (s : List (Bound T)) (ha : BoundInv a)
    (hb : BoundInv b) (hy : BoundInv y) (hs : SpanInv next s) :
    BoundInv (UnionBounds next cmpOf a b).1 ∧
    (∀ p ∈ a.Difference cmpOf b, BoundInv p) ∧
    (∀ p ∈ UnionBound next cmpOf s b, BoundInv p) ∧
    (∀ p ∈ DifferenceBound cmpOf s y, BoundInv p) := by
  refine ⟨unionBounds_fst_inv ha hb, diffPieces_inv ha,
    (unionBound_inv hn hs hb).1, ?_⟩
  intro p hp
  rw [differenceBound_eq] at hp
  rcases List.mem_flatMap.mp hp with ⟨e, he, hpe⟩
  exact dbPiece_inv (hs.1 e he) p hpe

theorem claim_C6_witness :
    BoundInv (UnionBounds (some nextIntFn) cmpOf
      (⟨⟨1, true⟩, ⟨2, true⟩⟩ : Bound ℤ) ⟨⟨4, true⟩, ⟨5, true⟩⟩).1 :=
  (claim_C6 nextInt_ok ⟨⟨1, true⟩, ⟨2, true⟩⟩ ⟨⟨4, true⟩, ⟨5, true⟩⟩
    ⟨⟨7, true⟩, ⟨8, true⟩⟩ [⟨⟨1, true⟩, ⟨2, true⟩⟩]
    (by decide) (by decide) (by decide) (spanInv_single (by decide))).1

/-- Claim C7 (corrected): `NewBoundEdgesFunc` fails exactly when the
lower edge value exceeds the upper or a zero-width bound has an
excluded side, and on success returns its input unchanged (no silent
normalisation).  `ParseBound`, however, does NOT validate the bound it
builds, so the claim's "every Bound returned by a successful ParseBound
satisfies the bound invariant" is false: the counterexample parses
`"[3:1]"` successfully into a bound the constructor rejects. -/
theorem claim_C7 (lo hi : Edge T) :
    (NewBoundEdgesFunc lo hi cmpOf = none ↔
      hi.Value < lo.Value ∨
        (lo.Value = hi.Value ∧
          (lo.Included = false ∨ hi.Included = false))) ∧
    (∀ b, NewBoundEdgesFunc lo hi cmpOf = some b → b = ⟨lo, hi⟩) := by
  constructor
  · unfold NewBoundEdgesFunc
    split_ifs with hc1 hc2
    · simp only [true_iff]
      exact Or.inl (cmpOf_pos.mp hc1)
    · simp only [true_iff]
      simp only [Bool.and_eq_true, decide_eq_true_iff, Bool.or_eq_true,
        Bool.not_eq_true'] at hc2
      exact Or.inr ⟨cmpOf_eq_zero.mp hc2.1, hc2.2⟩
    · constructor
      · intro h
        exact absurd h (by simp)
      · intro h
        exfalso
        rcases h with h | ⟨hv, hflag⟩
        · exact hc1 (by rw [gt_iff_lt, cmpOf_pos]; exact h)
        · refine hc2 ?_
          simp only [Bool.and_eq_true, decide_eq_true_iff, Bool.or_eq_true,
            Bool.not_eq_true']
          exact ⟨cmpOf_eq_zero.mpr hv, hflag⟩
  · intro b h
    unfold NewBoundEdgesFunc at h
    split_ifs at h
    injection h with h
    exact h.symm

/-- Claim C7 counterexample: `ParseBound` accepts `"[3:1]"` and returns
the inverted bound `[3:1]` untouched, although `NewBoundEdgesFunc`
rejects those edges — parsing performs no validation. -/
theorem claim_C7_counterexample :
    ParseBound ['[', '3', ':', '1', ']'] digitsParser =
      .ok (⟨⟨3, true⟩, ⟨1, true⟩⟩ : Bound ℤ) ∧
    NewBoundEdgesFunc (⟨3, true⟩ : Edge ℤ) ⟨1, true⟩ cmpOf = none :=
  ⟨rfl, by decide⟩

/-- Claim C8 (corrected): every structurally malformed input — too
short, wrong opening or closing bracket, missing `':'` — makes
`ParseBound` return the `ErrInvalidBound` error value (never a crash),
and every structurally well-formed input is decoded with the inclusion
flags taken from the bracket characters; but a value the caller's
parser rejects surfaces as that parser's own error propagated
unchanged, NOT as the "invalid bound" error (see the
counterexample). -/
theorem claim_C8 {ε : Type} (s : List Char)
    (parser : List Char → Except ε T) :
    (s.length < 5 → ParseBound s parser = .error .invalidBound) ∧
    (∀ c0, ¬s.length < 5 → s.head? = some c0 → ¬c0 = '[' → ¬c0 = '(' →
      ParseBound s parser = .error .invalidBound) ∧
    (∀ cN, ¬s.length < 5 → s.getLast? = some cN → ¬cN = ']' → ¬cN = ')' →
      ParseBound s parser = .error .invalidBound) ∧
    (¬s.length < 5 → s.findIdx? (· = ':') = none →
      ParseBound s parser = .error .invalidBound) ∧
    (∀ cl cr v1 v2, cl = '[' ∨ cl = '(' → cr = ']' ∨ cr = ')' → ':' ∉ v1 →
      2 ≤ v1.length + v2.length →
      ParseBound (cl :: (v1 ++ ':' :: v2 ++ [cr])) parser =
        (match parser v1 with
        | .error e => .error (.parserErr e)
        | .ok lo =>
          match parser v2 with
          | .error e => .error (.parserErr e)
          | .ok hi =>
            .ok ⟨⟨lo, decide (cl = '[')⟩, ⟨hi, decide (cr = ']')⟩⟩)) := by
  refine ⟨?_, ?_, ?_, ?_, ?_⟩
  · intro h5
    unfold ParseBound
    rw [if_pos h5]
  · intro c0 h5 hh hn1 hn2
    unfold ParseBound
    rw [if_neg h5]
    simp only [hh, if_neg hn1, if_neg hn2]
  · intro cN h5 hl hn1 hn2
    unfold ParseBound
    rw [if_neg h5]
    rcases hh : s.head? with _ | c0 <;> simp only [hh]
    rcases hli : (if c0 = '[' then some true else
        if c0 = '(' then some false else none) with _ | b2 <;> simp only [hli]
    simp only [hl, if_neg hn1, if_neg hn2]
  · intro h5 hf
    unfold ParseBound
    rw [if_neg h5]
    rcases hh : s.head? with _ | c0 <;> simp only [hh]
    rcases hli : (if c0 = '[' then some true else
        if c0 = '(' then some false else none) with _ | b2 <;> simp only [hli]
    rcases hl : s.getLast? with _ | cN <;> simp only [hl]
    rcases hhi : (if cN = ']' then some true else
        if cN = ')' then some false else none) with _ | b3 <;> simp only [hhi]
    simp only [hf]
  · intro cl cr v1 v2 hcl hcr h1 hlen
    exact parseBound_wf parser cl cr hcl hcr v1 v2 h1 hlen

/-- Claim C8 counterexample: on `"[a:1]"` the structure is fine but the
digit parser rejects `"a"`; `ParseBound` propagates the parser's error,
which is a different error value from `ErrInvalidBound`. -/
theorem claim_C8_counterexample :
    ParseBound ['[', 'a', ':', '1', ']'] digitsParser =
      .error (.parserErr ()) ∧
    BoundErr.parserErr () ≠ (BoundErr.invalidBound : BoundErr Unit) :=
  ⟨rfl, by decide⟩

/-- Claim C9: when the value parser inverts the value formatter
(`parser cs = ok v → format v = cs`), formatting the bound obtained by
parsing any syntactically valid bound string reproduces that string
character for character. -/
theorem claim_C9 {ε : Type} (parser : List Char → Except ε T)
    (format : T → List Char)
    (hfp : ∀ cs v, parser cs = .ok v → format v = cs)
    (cl cr : Char) (hcl : cl = '[' ∨ cl = '(') (hcr : cr = ']' ∨ cr = ')')
    (v1 v2 : List Char) (h1 : ':' ∉ v1)
    (hlen : 2 ≤ v1.length + v2.length) :
    ∀ b, ParseBound (cl :: (v1 ++ ':' :: v2 ++ [cr])) parser = .ok b →
      boundString format b.Lo b.Hi = cl :: (v1 ++ ':' :: v2 ++ [cr]) := by
  intro b hok
  rw [parseBound_wf parser cl cr hcl hcr v1 v2 h1 hlen] at hok
  rcases hp1 : parser v1 with e | lo <;> simp only [hp1] at hok
  · simp at hok
  · rcases hp2 : parser v2 with e2 | hi <;> simp only [hp2] at hok
    · simp at hok
    · injection hok with hok
      subst hok
      unfold boundString
      rw [hfp v1 lo hp1, hfp v2 hi hp2]
      rcases hcl with rfl | rfl <;> rcases hcr with rfl | rfl <;> simp

theorem claim_C9_witness :
    boundString digitFormat (⟨(5 : ℤ), true⟩ : Edge ℤ) ⟨7, true⟩ =
      '[' :: (['5'] ++ ':' :: ['7'] ++ [']']) :=
  claim_C9 digitParser1 digitFormat digit_inverse '[' ']' (Or.inl rfl)
    (Or.inl rfl) ['5'] ['7'] (by decide) (by decide)
    ⟨⟨5, true⟩, ⟨7, true⟩⟩ rfl

/-- Claim C10: the edge-aware span package's `FromBasicOrdered` passes
a nil successor to `New`, whose precondition check rejects it before
any bound is processed, so the call panics (modelled by `none`) for
every input, the empty list included. -/
theorem claim_C10 (s : List (T × T)) : FromBasicOrdered s = none := by
  unfold FromBasicOrdered
  cases s.mapM fun b => NewBound true b.1 b.2 true <;> rfl

end Lemmas

end SpanV2
